import Mathlib

/-!
Verification of the vreplica scheduler of knative-sandbox/eventing-kafka.

This file shallowly embeds the scheduler sources
(`pkg/common/scheduler/state/state.go`, the statefulset scheduler, the
ordinal helpers and the `PodFitsResources` plugin) into Lean and proves
properties of that embedding.

Modelling conventions:
* Go `int32`/`int64` values are modelled as `Int`.  None of the verified
  properties involve wrap-around, and where the source checks the
  `int32` range explicitly (`strconv.ParseInt(_, 10, 32)`) the range
  check is modelled explicitly.
* Go maps are modelled as association lists; iteration over a map is
  modelled as iteration over the list, i.e. one fixed iteration order
  among those the Go runtime may produce.
* Go strings are Lean `String`s (a `String` is a packed `List Char`).
-/

namespace EventingKafka

/-- k8s `types.NamespacedName`, the key of a vpod. -/
structure NamespacedName where
  nspace : String
  name : String
deriving DecidableEq, Repr

/-- `duckv1alpha1.Placement`: (pod name, vreplica count). -/
structure Placement where
  podName : String
  vreplicas : Int
deriving DecidableEq, Repr

/-- A vpod as seen by the scheduler: key, desired vreplicas, committed placements. -/
structure VPod where
  key : NamespacedName
  vreplicas : Int
  placements : List Placement
deriving DecidableEq, Repr

/-- `scheduler.SchedulerPolicyType` (a string in Go); `unspecified` models `""`. -/
inductive SchedulerPolicyType where
  | maxfillup
  | evenspread
  | evenspreadByNode
  | unspecified
deriving DecidableEq, Repr

/-! ### Association-list operations modelling Go map lookup/assignment/delete -/

/-- Go map read `m[k]` (with `ok` as `Option`). -/
def alookup {κ ν : Type} [DecidableEq κ] (k : κ) : List (κ × ν) → Option ν
  | [] => none
  | (k', v) :: t => if k = k' then some v else alookup k t

/-- Go map write `m[k] = v`. -/
def aset {κ ν : Type} [DecidableEq κ] (k : κ) (v : ν) : List (κ × ν) → List (κ × ν)
  | [] => [(k, v)]
  | (k', v') :: t => if k = k' then (k, v) :: t else (k', v') :: aset k v t

/-- Go map `delete(m, k)`. -/
def aerase {κ ν : Type} [DecidableEq κ] (k : κ) : List (κ × ν) → List (κ × ν)
  | [] => []
  | (k', v) :: t => if k = k' then aerase k t else (k', v) :: aerase k t

/-- The `reserved` table: vpod key → (pod name → reserved vreplicas). -/
abbrev ReservedMap := List (NamespacedName × List (String × Int))

/-- The `pending` table: vpod key → unplaced vreplicas. -/
abbrev PendingMap := List (NamespacedName × Int)

/-! ### Ordinal utilities (`helpers.go` / the `state` package)

`ordinalFromPodName` parses the decimal after the last `-`
(`strconv.ParseInt(podName[strings.LastIndex(podName,"-")+1:], 10, 32)`),
returning `math.MaxInt32` on a parse error.  `podNameFromOrdinal` is
`name + "-" + strconv.Itoa(int(ordinal))`. -/

def maxInt32 : Int := 2147483647

/-- The characters after the last `'-'` (the whole list when there is
no `'-'`, matching `strings.LastIndex` returning `-1`). -/
def afterLastDash (l : List Char) : List Char :=
  (l.reverse.takeWhile (fun c => c ≠ '-')).reverse

/-- Decimal digit value of a char, if it is a digit. -/
def digitVal (c : Char) : Option Nat :=
  if '0' ≤ c ∧ c ≤ '9' then some (c.toNat - '0'.toNat) else none

def digitsValAux : List Char → Nat → Option Nat
  | [], acc => some acc
  | c :: t, acc =>
    match digitVal c with
    | some d => digitsValAux t (acc * 10 + d)
    | none => none

/-- Value of a non-empty all-digit string. -/
def digitsVal (l : List Char) : Option Nat :=
  match l with
  | [] => none
  | _ => digitsValAux l 0

/-- `strconv.ParseInt(s, 10, 32)`: optional leading sign, non-empty
digits, `int32` range check (out of range is an error). -/
def parseInt32 : List Char → Option Int
  | [] => none
  | c :: t =>
    if c = '+' then
      (digitsVal t).bind fun n =>
        if (n : Int) ≤ maxInt32 then some (n : Int) else none
    else if c = '-' then
      (digitsVal t).bind fun n =>
        if (n : Int) ≤ maxInt32 + 1 then some (-(n : Int)) else none
    else
      (digitsVal (c :: t)).bind fun n =>
        if (n : Int) ≤ maxInt32 then some (n : Int) else none

/-- `OrdinalFromPodName`. -/
def ordinalFromPodName (podName : String) : Int :=
  match parseInt32 (afterLastDash podName.data) with
  | some n => n
  | none => maxInt32

/-- Decimal digits of `n` (most significant first), fuelled structural
recursion mirroring `strconv.Itoa`; `fuel > n` suffices. -/
def itoaNatAux : Nat → Nat → List Char
  | 0, _ => []
  | fuel + 1, n =>
    if n < 10 then [Nat.digitChar n]
    else itoaNatAux fuel (n / 10) ++ [Nat.digitChar (n % 10)]

def itoaNat (n : Nat) : List Char := itoaNatAux (n + 1) n

/-- `strconv.Itoa`. -/
def itoa (i : Int) : String :=
  if i < 0 then ⟨'-' :: itoaNat (-i).toNat⟩ else ⟨itoaNat i.toNat⟩

/-- `PodNameFromOrdinal`. -/
def podNameFromOrdinal (name : String) (ordinal : Int) : String :=
  name ++ "-" ++ itoa ordinal

/-! ### The state snapshot (`state.go`) -/

/-- `state.State`: the immutable snapshot built for each scheduling call.
The node/zone fields are carried but the claims below do not touch the
node-enumeration branch. -/
structure State where
  FreeCap : List Int
  LastOrdinal : Int
  Capacity : Int
  NumZones : Int := 0
  NumNodes : Int := 0
  SchedulerPolicy : SchedulerPolicyType
  NodeToZoneMap : List (String × String) := []
deriving DecidableEq, Repr

/-- `grow`: extend `slice` with `def` up to index `ordinal`. -/
def grow (slice : List Int) (ordinal : Int) (dflt : Int) : List Int :=
  let l : Int := slice.length
  let diff := ordinal - l + 1
  if diff ≤ 0 then slice else slice ++ List.replicate diff.toNat dflt

/-- `State.Free`: free capacity at an ordinal (callers only pass the
non-negative results of `ordinalFromPodName` or loop indices). -/
def State.Free (s : State) (ordinal : Int) : Int :=
  if (s.FreeCap.length : Int) ≤ ordinal then s.Capacity
  else s.FreeCap.getD ordinal.toNat 0

/-- `State.SetFree`. -/
def State.SetFree (s : State) (ordinal : Int) (value : Int) : State :=
  { s with FreeCap := (grow s.FreeCap ordinal s.Capacity).set ordinal.toNat value }

/-- `stateBuilder.updateFreeCapacity` (the overcommit log is dropped:
the code logs and continues). -/
def updateFreeCapacity (capacity : Int) (free : List Int) (last : Int)
    (podName : String) (vreplicas : Int) : List Int × Int :=
  let ordinal := ordinalFromPodName podName
  let free' := grow free ordinal capacity
  let free'' := free'.set ordinal.toNat (free'.getD ordinal.toNat 0 - vreplicas)
  let last' := if ordinal > last ∧ free''.getD ordinal.toNat 0 ≠ capacity then ordinal else last
  (free'', last')

/-- `withReserved`: effective vreplicas for one (vpod, pod) pair, plus
the updated reservation table (the entry is deleted when the committed
value equals the reserved one). -/
def withReserved (key : NamespacedName) (podName : String) (committed : Int)
    (reserved : ReservedMap) : Int × ReservedMap :=
  match alookup key reserved with
  | none => (committed, reserved)
  | some rps =>
    match alookup podName rps with
    | none => (committed, reserved)
    | some rvreplicas =>
      if committed < rvreplicas then
        (rvreplicas, reserved)
      else if committed = rvreplicas then
        let rps' := aerase podName rps
        let reserved' := if rps' = [] then aerase key reserved else aset key rps' reserved
        (committed, reserved')
      else
        (committed, reserved)

/-- Tracking of `withPlacement`: vpod key → pod names with observed placements. -/
abbrev WithPlacement := List (NamespacedName × List String)

/-- First loop of `stateBuilder.State`, inner part: fold one vpod's
placements through `withReserved` and `updateFreeCapacity`. -/
def processPlacements (capacity : Int) (key : NamespacedName) :
    List Placement → List Int → Int → ReservedMap → List Int × Int × ReservedMap
  | [], free, last, reserved => (free, last, reserved)
  | p :: ps, free, last, reserved =>
    let vr := (withReserved key p.podName p.vreplicas reserved).1
    let reserved' := (withReserved key p.podName p.vreplicas reserved).2
    let fl := updateFreeCapacity capacity free last p.podName vr
    processPlacements capacity key ps fl.1 fl.2 reserved'

/-- First loop of `stateBuilder.State`, over all vpods.  `withPlacement[key]`
ends up holding exactly the pod names of that vpod's placements. -/
def processVPods (capacity : Int) :
    List VPod → List Int → Int → ReservedMap → WithPlacement →
    List Int × Int × ReservedMap × WithPlacement
  | [], free, last, reserved, wp => (free, last, reserved, wp)
  | v :: vs, free, last, reserved, wp =>
    let wp' := aset v.key (v.placements.map (·.podName)) wp
    let r := processPlacements capacity v.key v.placements free last reserved
    processVPods capacity vs r.1 r.2.1 r.2.2 wp'

/-- Membership test `withPlacement[key][podName]` (both `ok` checks). -/
def inWithPlacement (wp : WithPlacement) (key : NamespacedName) (podName : String) : Bool :=
  match alookup key wp with
  | some names => names.contains podName
  | none => false

/-- Second loop of `stateBuilder.State`, inner part.  NOTE: the source
uses `break` when the pod name is already accounted for, which abandons
the remaining reservation entries of the same vpod key. -/
def processReservedPods (capacity : Int) (wp : WithPlacement) (key : NamespacedName) :
    List (String × Int) → List Int → Int → List Int × Int
  | [], free, last => (free, last)
  | (podName, rvreplicas) :: t, free, last =>
    if inWithPlacement wp key podName then
      (free, last)  -- `break`: remaining entries of this key are dropped
    else
      let fl := updateFreeCapacity capacity free last podName rvreplicas
      processReservedPods capacity wp key t fl.1 fl.2

/-- Second loop of `stateBuilder.State`, over all reserved keys. -/
def processReserved (capacity : Int) (wp : WithPlacement) :
    ReservedMap → List Int → Int → List Int × Int
  | [], free, last => (free, last)
  | (key, ps) :: t, free, last =>
    let fl := processReservedPods capacity wp key ps free last
    processReserved capacity wp t fl.1 fl.2

/-- `stateBuilder.State` (successful path; the node-enumeration branch
only fills the zone fields and is not needed by the claims).  Returns
the snapshot together with the updated reservation table (the Go code
mutates `reserved` in place). -/
def buildState (capacity : Int) (policy : SchedulerPolicyType)
    (vpods : List VPod) (reserved : ReservedMap) : State × ReservedMap :=
  let r := processVPods capacity vpods [] (-1) reserved []
  let fl := processReserved capacity r.2.2.2 r.2.2.1 r.1 r.2.1
  ({ FreeCap := fl.1, LastOrdinal := fl.2, Capacity := capacity,
     SchedulerPolicy := policy }, r.2.2.1)

/-! ### Status and the `PodFitsResources` filter plugin -/

inductive StatusCode where
  | success
  | unschedulable
  | error
deriving DecidableEq, Repr

structure Status where
  code : StatusCode
  reasons : List String
deriving DecidableEq, Repr

def Status.isSuccess (s : Status) : Bool := s.code = .success

/-- `PodFitsResources.Filter`. -/
def podFitsResourcesFilter (states : State) (podID : Int) : Status :=
  if states.FreeCap.length = 0 ∨ 0 < states.Free podID then ⟨.success, []⟩
  else ⟨.unschedulable, ["pod at full capacity"]⟩

/-! ### The statefulset scheduler (`scheduler.go` in package statefulset) -/

/-- Modelled from the spec: `scheduler.GetTotalVReplicas` is not under
`src/`; the spec defines it as `Σ placement.vreplicas`. -/
def getTotalVReplicas (placements : List Placement) : Int :=
  placements.foldl (fun t p => t + p.vreplicas) 0

/-- One priority of a `SchedulerPolicy` (shape as used in the source:
`.Name` and `.Weight`). -/
structure PriorityPolicy where
  name : String
  weight : Int
deriving DecidableEq, Repr

/-- One predicate of a `SchedulerPolicy`. -/
structure PredicatePolicy where
  name : String
deriving DecidableEq, Repr

/-- The plugin policy configuration `{Predicates, Priorities}`. -/
structure SchedulerPolicy where
  predicates : List PredicatePolicy
  priorities : List PriorityPolicy
deriving DecidableEq, Repr

/-- Modelled from the spec: the constant `MaxTotalWeight` is not under
`src/`; the claims depend on it only symbolically (the spec requires
`0 < weight < MaxTotalWeight`). -/
def MaxTotalWeight : Int := 100

/-- `ValidatePolicy`: one validation error per out-of-range priority
weight (the message text is irrelevant to the claims). -/
def ValidatePolicy (policy : SchedulerPolicy) : List String :=
  policy.priorities.foldl (fun validationErrors priority =>
    if priority.weight ≤ 0 ∨ priority.weight ≥ MaxTotalWeight then
      validationErrors ++ ["priority should have a positive weight applied to it or it has overflown"]
    else validationErrors) []

/-- Errors returned by `scheduleVPod`. -/
inductive SchedErr where
  | notEnoughReplicas
  | validatingPolicyFailed
deriving DecidableEq, Repr

/-- `removeReplicas` iterates the placements from the last index
downward; this helper consumes the reversed list (survivors are
appended in that same descending order). -/
def removeRev (diff : Int) : List Placement → List Placement
  | [] => []
  | p :: t =>
    if diff ≥ p.vreplicas then removeRev (diff - p.vreplicas) t
    else ⟨p.podName, p.vreplicas - diff⟩ :: removeRev 0 t

/-- `StatefulSetScheduler.removeReplicas`. -/
def removeReplicas (diff : Int) (placements : List Placement) : List Placement :=
  removeRev diff placements.reverse

/-- First loop of `addReplicas`: fill up the existing placements. -/
def addReplicasExisting (st : State) (diff : Int) :
    List Placement → List Placement × Int × State
  | [] => ([], diff, st)
  | p :: ps =>
    let ordinal := ordinalFromPodName p.podName
    let f := st.Free ordinal
    if 0 ≤ diff ∧ 0 < f then
      let allocation := min f diff
      let r := addReplicasExisting (st.SetFree ordinal (f - allocation)) (diff - allocation) ps
      (⟨p.podName, p.vreplicas + allocation⟩ :: r.1, r.2)
    else
      let r := addReplicasExisting st diff ps
      (p :: r.1, r.2)

/-- The ordinals `0, 1, …, replicas-1` scanned by the allocation loops. -/
def rangeInts (n : Int) : List Int := (List.range n.toNat).map (fun (i : Nat) => (i : Int))

/-- Second loop of `addReplicas`: allocate to new pods, scanning the
ordinals in order and breaking once `diff` reaches zero. -/
def addReplicasNew (sname : String) : List Int → State → Int → List Placement × Int × State
  | [], st, diff => ([], diff, st)
  | ordinal :: rest, st, diff =>
    let f := st.Free ordinal
    let step : List Placement × Int × State :=
      if 0 < f then
        let allocation := min f diff
        ([⟨podNameFromOrdinal sname ordinal, allocation⟩], diff - allocation,
         st.SetFree ordinal (f - allocation))
      else ([], diff, st)
    if step.2.1 = 0 then step
    else
      let r := addReplicasNew sname rest step.2.2 step.2.1
      (step.1 ++ r.1, r.2.1, r.2.2)

/-- `StatefulSetScheduler.addReplicas` (MAXFILLUP). -/
def addReplicas (replicas : Int) (sname : String) (st : State) (diff : Int)
    (placements : List Placement) : List Placement × Int × State :=
  let r := addReplicasExisting st diff placements
  if 0 < r.2.1 then
    let r2 := addReplicasNew sname (rangeInts replicas) r.2.2 r.2.1
    (r.1 ++ r2.1, r2.2.1, r2.2.2)
  else r

/-! ### The even-spread paths -/

/-- `getPodInfo`: (zoneName, nodeName, err).  On a pod-lister miss both
names are zero values; on a missing zone the node name is still
returned.  The pod lister is modelled as the association list
`podToNode`. -/
def getPodInfo (podToNode : List (String × String)) (ntz : List (String × String))
    (podName : String) : String × String × Bool :=
  match alookup podName podToNode with
  | none => ("", "", true)
  | some nodeName =>
    match alookup nodeName ntz with
    | none => ("", nodeName, true)
    | some zoneName => (zoneName, nodeName, false)

/-- `placementsByDomain[key] = append(placementsByDomain[key], ordinal)`. -/
def appendGroup (key : String) (v : Int) (groups : List (String × List Int)) :
    List (String × List Int) :=
  match alookup key groups with
  | some l => aset key (l ++ [v]) groups
  | none => aset key [v] groups

/-- `getPlacementsByZoneKey`. -/
def getPlacementsByZoneKey (podToNode : List (String × String)) (ntz : List (String × String))
    (placements : List Placement) : List (String × List Int) :=
  placements.foldl (fun groups p =>
    appendGroup (getPodInfo podToNode ntz p.podName).1 (ordinalFromPodName p.podName) groups) []

/-- `getPlacementsByNodeKey`. -/
def getPlacementsByNodeKey (podToNode : List (String × String)) (ntz : List (String × String))
    (placements : List Placement) : List (String × List Int) :=
  placements.foldl (fun groups p =>
    appendGroup (getPodInfo podToNode ntz p.podName).2.1 (ordinalFromPodName p.podName) groups) []

/-- `getTotalVReplicasInZone`. -/
def getTotalVReplicasInZone (podToNode : List (String × String)) (ntz : List (String × String))
    (placements : List Placement) (zoneName : String) : Int :=
  placements.foldl (fun t p =>
    if (getPodInfo podToNode ntz p.podName).1 = zoneName then t + p.vreplicas else t) 0

/-- `getTotalVReplicasInNode`. -/
def getTotalVReplicasInNode (podToNode : List (String × String)) (ntz : List (String × String))
    (placements : List Placement) (nodeName : String) : Int :=
  placements.foldl (fun t p =>
    if (getPodInfo podToNode ntz p.podName).2.1 = nodeName then t + p.vreplicas else t) 0

/-- `getPlacementFromPodOrdinal` (zero-value placement when absent). -/
def getPlacementFromPodOrdinal (sname : String) (placements : List Placement)
    (ordinal : Int) : Placement :=
  match placements.find? (fun p => p.podName = podNameFromOrdinal sname ordinal) with
  | some p => p
  | none => ⟨"", 0⟩

/-- Domain total used by the even-spread passes (zone or node). -/
def domainTotal (byNode : Bool) (podToNode : List (String × String))
    (ntz : List (String × String)) (placements : List Placement) (d : String) : Int :=
  if byNode then getTotalVReplicasInNode podToNode ntz placements d
  else getTotalVReplicasInZone podToNode ntz placements d

/-- The sorted domain names (`sort.Strings` over the map keys). -/
def sortedDomainNames (groups : List (String × List Int)) : List String :=
  (groups.map (·.1)).mergeSort (fun a b => decide (a ≤ b))

/-- Inner loop of `addToExistingReplicas`: one domain's ordinals. -/
def addExistDomain (sname : String) (origPlacements : List Placement) (evenSpread : Int) :
    List Int → State → Int → Int → List Placement × State × Int
  | [], st, diff, _total => ([], st, diff)
  | ordinal :: rest, st, diff, total =>
    let placement := getPlacementFromPodOrdinal sname origPlacements ordinal
    let f := st.Free ordinal
    if 0 ≤ diff ∧ 0 < f ∧ total < evenSpread then
      let allocation := min diff (min f (evenSpread - total))
      let r := addExistDomain sname origPlacements evenSpread rest
        (st.SetFree ordinal (f - allocation)) (diff - allocation) (total + allocation)
      (⟨placement.podName, placement.vreplicas + allocation⟩ :: r.1, r.2)
    else
      let r := addExistDomain sname origPlacements evenSpread rest st diff total
      (placement :: r.1, r.2)

/-- Outer loop of `addToExistingReplicas`: the sorted domains. -/
def addExistDomains (byNode : Bool) (podToNode ntz : List (String × String)) (sname : String)
    (origPlacements : List Placement) (evenSpread : Int) (groups : List (String × List Int)) :
    List String → State → Int → List Placement × State × Int
  | [], st, diff => ([], st, diff)
  | d :: rest, st, diff =>
    let total := domainTotal byNode podToNode ntz origPlacements d
    let bucket := (alookup d groups).getD []
    let r := addExistDomain sname origPlacements evenSpread bucket st diff total
    let r2 := addExistDomains byNode podToNode ntz sname origPlacements evenSpread groups rest r.2.1 r.2.2
    (r.1 ++ r2.1, r2.2)

/-- `addToExistingReplicas` (the zone lookups read only
`state.NodeToZoneMap`, which `SetFree` never changes, so the map is
threaded as the fixed parameter `ntz`). -/
def addToExistingReplicas (byNode : Bool) (podToNode ntz : List (String × String)) (sname : String)
    (st : State) (diff : Int) (placements : List Placement) (evenSpread : Int) :
    List Placement × State × Int :=
  let groups := if byNode then getPlacementsByNodeKey podToNode ntz placements
                else getPlacementsByZoneKey podToNode ntz placements
  addExistDomains byNode podToNode ntz sname placements evenSpread groups
    (sortedDomainNames groups) st diff

/-- `addToNewReplicas`: scan all ordinals, skipping pods with no free
capacity, pods with no zone/node info and pods of saturated domains. -/
def addToNewReplicas (byNode : Bool) (podToNode ntz : List (String × String)) (sname : String)
    (evenSpread : Int) : List Int → State → Int → List Placement → List Placement × Int × State
  | [], st, diff, newPlacements => (newPlacements, diff, st)
  | ordinal :: rest, st, diff, newPlacements =>
    let f := st.Free ordinal
    let step : List Placement × Int × State :=
      if 0 < f then
        let podName := podNameFromOrdinal sname ordinal
        let info := getPodInfo podToNode ntz podName
        if info.2.2 then (newPlacements, diff, st)
        else
          let total := domainTotal byNode podToNode ntz newPlacements
            (if byNode then info.2.1 else info.1)
          if total ≥ evenSpread then (newPlacements, diff, st)
          else
            let allocation := min diff (min f (evenSpread - total))
            (newPlacements ++ [⟨podName, allocation⟩], diff - allocation,
             st.SetFree ordinal (f - allocation))
      else (newPlacements, diff, st)
    if step.2.1 = 0 then step
    else addToNewReplicas byNode podToNode ntz sname evenSpread rest step.2.2 step.2.1 step.1

/-- `addReplicasEvenSpread`. -/
def addReplicasEvenSpread (byNode : Bool) (podToNode : List (String × String))
    (replicas : Int) (sname : String) (st : State) (diff : Int)
    (placements : List Placement) (evenSpread : Int) : List Placement × Int × State :=
  let r := addToExistingReplicas byNode podToNode st.NodeToZoneMap sname st diff placements evenSpread
  if 0 < r.2.2 then
    addToNewReplicas byNode podToNode st.NodeToZoneMap sname evenSpread
      (rangeInts replicas) r.2.1 r.2.2 r.1
  else (r.1, r.2.2, r.2.1)

/-- Inner loop of `removeFromExistingReplicas`: one domain's ordinals,
iterated from the largest index downward (the caller reverses). -/
def removeExistDomain (sname : String) (origPlacements : List Placement) (evenSpread : Int) :
    List Int → Int → Int → List Placement × Int
  | [], diff, _total => ([], diff)
  | ordinal :: rest, diff, total =>
    let placement := getPlacementFromPodOrdinal sname origPlacements ordinal
    if 0 < diff ∧ total ≥ evenSpread then
      let deallocation := min diff (min placement.vreplicas (total - evenSpread))
      if 0 < deallocation ∧ deallocation < placement.vreplicas then
        let r := removeExistDomain sname origPlacements evenSpread rest
          (diff - deallocation) (total - deallocation)
        (⟨placement.podName, placement.vreplicas - deallocation⟩ :: r.1, r.2)
      else if deallocation ≥ placement.vreplicas then
        removeExistDomain sname origPlacements evenSpread rest
          (diff - placement.vreplicas) (total - placement.vreplicas)
      else
        let r := removeExistDomain sname origPlacements evenSpread rest diff total
        (placement :: r.1, r.2)
    else
      let r := removeExistDomain sname origPlacements evenSpread rest diff total
      (placement :: r.1, r.2)

/-- Outer loop of `removeFromExistingReplicas`. -/
def removeExistDomains (byNode : Bool) (podToNode ntz : List (String × String)) (sname : String)
    (origPlacements : List Placement) (evenSpread : Int) (groups : List (String × List Int)) :
    List String → Int → List Placement
  | [], _diff => []
  | d :: rest, diff =>
    let total := domainTotal byNode podToNode ntz origPlacements d
    let bucket := (alookup d groups).getD []
    let r := removeExistDomain sname origPlacements evenSpread bucket.reverse diff total
    r.1 ++ removeExistDomains byNode podToNode ntz sname origPlacements evenSpread groups rest r.2

/-- `removeReplicasEvenSpread` / `removeFromExistingReplicas`. -/
def removeReplicasEvenSpread (byNode : Bool) (podToNode : List (String × String))
    (sname : String) (st : State) (diff : Int) (placements : List Placement)
    (evenSpread : Int) : List Placement :=
  let groups := if byNode then getPlacementsByNodeKey podToNode st.NodeToZoneMap placements
                else getPlacementsByZoneKey podToNode st.NodeToZoneMap placements
  removeExistDomains byNode podToNode st.NodeToZoneMap sname placements evenSpread groups
    (sortedDomainNames groups) diff

/-! ### The plugin-policy path -/

/-- `addSelectionToPlacements` for one selected `(podID ↦ newreps)` (the
`selectedPodIDsToVreps` map always holds exactly one entry): bump every
placement whose pod ordinal equals `podID`, else append a new entry. -/
def addSelectionToPlacements (sname : String) (podID : Int) (newreps : Int)
    (placements : List Placement) : List Placement :=
  let seen := placements.any (fun p => ordinalFromPodName p.podName = podID)
  let placements' := placements.map (fun p =>
    if ordinalFromPodName p.podName = podID then ⟨p.podName, p.vreplicas + newreps⟩ else p)
  if seen then placements' else placements' ++ [⟨podNameFromOrdinal sname podID, newreps⟩]

/-- Model of `addReplicasWithPolicy`.  The per-vreplica machinery (state
re-snapshot, filter plugins, scoring, random tie-break) is abstracted by
the `decisions` oracle: `some id` places this vreplica on ordinal `id`
(via `addSelectionToPlacements` with a one-entry selection map), `none`
models any of the abort branches (state error, no feasible pod, plugin
or selection error), which leave the remaining vreplicas unplaced.  The
in-loop `reservePlacements` side effects are dropped (they only feed the
next snapshot, which the oracle already abstracts). -/
def addReplicasWithPolicy (sname : String) : List (Option Int) → Int → List Placement →
    List Placement × Int
  | ds, diff, placements =>
    if diff ≤ 0 then (placements, diff)
    else
      match ds with
      | [] => (placements, diff)
      | none :: _ => (placements, diff)
      | some id :: rest =>
        addReplicasWithPolicy sname rest (diff - 1) (addSelectionToPlacements sname id 1 placements)

/-! ### `scheduleVPod` and `Schedule` -/

/-- `int32(math.Ceil(float64 a / float64 b))` for the values reachable
here (`0 ≤ a < 2^31`, `0 ≤ b < 2^31`, so the float arithmetic is exact
when `b > 0`).  For `b = 0` the division yields `±Inf`/`NaN` and the gc
runtime's out-of-range float-to-int32 conversion produces
`math.MinInt32`; either way the value only matters to the claims
symbolically. -/
def floatCeilDiv (a b : Int) : Int :=
  if b ≤ 0 then -2147483648 else (a + b - 1) / b

/-- `int32(math.Floor(float64 a / float64 b))`, same conventions. -/
def floatFloorDiv (a b : Int) : Int :=
  if b ≤ 0 then -2147483648 else a / b

/-- The scheduler's configuration and cached fields: the cached replica
count, the statefulset name, the pod lister (pod → node), the optional
plugin policy and the plugin-path oracle (see `addReplicasWithPolicy`). -/
structure SchedulerCfg where
  replicas : Int
  statefulSetName : String
  podToNode : List (String × String)
  policy : Option SchedulerPolicy
  policyDecisions : List (Option Int)

/-- Result of `scheduleVPod`/`Schedule`: the returned placements (`none`
models a nil slice), the returned error, the updated `pending` table and
whether the autoscaler was poked. -/
structure ScheduleResult where
  placements : Option (List Placement)
  err : Option SchedErr
  pending : PendingMap
  autoscaled : Bool
deriving DecidableEq, Repr

/-- The common tail of `scheduleVPod`: record pending and trigger the
autoscaler when vreplicas are left over, else clear pending. -/
def finishSchedule (key : NamespacedName) (pending : PendingMap)
    (newPlacements : List Placement) (left : Int) : ScheduleResult :=
  if 0 < left then
    ⟨some newPlacements, some .notEnoughReplicas, aset key left pending, true⟩
  else
    ⟨some newPlacements, none, aerase key pending, false⟩

/-- `StatefulSetScheduler.scheduleVPod`.  The state accessor is
abstracted by the already-built snapshot `st` (its error path returns
the error without touching any table and is not needed by the claims);
`pending` is the scheduler's pending table. -/
def scheduleVPod (cfg : SchedulerCfg) (pending : PendingMap) (st : State)
    (vpod : VPod) : ScheduleResult :=
  let placements := vpod.placements
  let tr := getTotalVReplicas placements
  if tr = vpod.vreplicas then
    ⟨some placements, none, aerase vpod.key pending, false⟩
  else if st.SchedulerPolicy ≠ .unspecified then
    if tr > vpod.vreplicas then
      let newPlacements :=
        if st.SchedulerPolicy = .evenspread then
          removeReplicasEvenSpread false cfg.podToNode cfg.statefulSetName st
            (tr - vpod.vreplicas) placements (floatFloorDiv vpod.vreplicas st.NumZones)
        else if st.SchedulerPolicy = .evenspreadByNode then
          removeReplicasEvenSpread true cfg.podToNode cfg.statefulSetName st
            (tr - vpod.vreplicas) placements (floatFloorDiv vpod.vreplicas st.NumNodes)
        else
          removeReplicas (tr - vpod.vreplicas) placements
      ⟨some newPlacements, none, pending, false⟩
    else
      let r :=
        if st.SchedulerPolicy = .evenspread then
          let r0 := addReplicasEvenSpread false cfg.podToNode cfg.replicas
            cfg.statefulSetName st (vpod.vreplicas - tr) placements
            (floatCeilDiv vpod.vreplicas st.NumZones)
          (r0.1, r0.2.1)
        else if st.SchedulerPolicy = .evenspreadByNode then
          let r0 := addReplicasEvenSpread true cfg.podToNode cfg.replicas
            cfg.statefulSetName st (vpod.vreplicas - tr) placements
            (floatCeilDiv vpod.vreplicas st.NumNodes)
          (r0.1, r0.2.1)
        else
          let r0 := addReplicas cfg.replicas cfg.statefulSetName st
            (vpod.vreplicas - tr) placements
          (r0.1, r0.2.1)
      finishSchedule vpod.key pending r.1 r.2
  else
    match cfg.policy with
    | some pol =>
      if ValidatePolicy pol ≠ [] then
        ⟨none, some .validatingPolicyFailed, pending, false⟩
      else
        let r := addReplicasWithPolicy cfg.statefulSetName cfg.policyDecisions
          (vpod.vreplicas - tr) placements
        finishSchedule vpod.key pending r.1 r.2
    | none =>
      -- neither a policy type nor a plugin policy: `left` stays 0
      finishSchedule vpod.key pending placements 0

/-- The stable sort by ordinal applied by `Schedule`
(`sort.SliceStable` with `ord i < ord j`). -/
def sortPlacements (l : List Placement) : List Placement :=
  l.mergeSort (fun a b =>
    decide (ordinalFromPodName a.podName ≤ ordinalFromPodName b.podName))

/-- `reservePlacements`: record every placement whose vreplicas exceed
the committed value for that (vpod, pod). -/
def reservePlacements (key : NamespacedName) (existing : List Placement)
    (placements : List Placement) (reserved : ReservedMap) : ReservedMap :=
  placements.foldl (fun res p =>
    let placed := match existing.find? (fun e => e.podName = p.podName) with
      | some e => e.vreplicas
      | none => 0
    if placed < p.vreplicas then
      let inner := (alookup key res).getD []
      aset key (aset p.podName p.vreplicas inner) res
    else res) reserved

/-- `StatefulSetScheduler.Schedule`: schedule, sort the returned
placements by ordinal, record reservations.  Returns the result plus
the updated reservation table. -/
def Schedule (cfg : SchedulerCfg) (pending : PendingMap) (reserved : ReservedMap)
    (st : State) (vpod : VPod) : ScheduleResult × ReservedMap :=
  let r := scheduleVPod cfg pending st vpod
  match r.placements with
  | none => (r, reserved)
  | some ps =>
    let sorted := sortPlacements ps
    (⟨some sorted, r.err, r.pending, r.autoscaled⟩,
     reservePlacements vpod.key vpod.placements sorted reserved)

/-! ## Lemmas about the association-list operations -/

theorem alookup_aerase_self {κ ν : Type} [DecidableEq κ] (k : κ) (l : List (κ × ν)) :
    alookup k (aerase k l) = none := by
  induction l with
  | nil => rfl
  | cons h t ih =>
    show alookup k (if k = h.1 then _ else _) = none
    by_cases hk : k = h.1
    · simpa [hk] using ih
    · simpa [alookup, aerase, hk] using ih

theorem alookup_aset_self {κ ν : Type} [DecidableEq κ] (k : κ) (v : ν) (l : List (κ × ν)) :
    alookup k (aset k v l) = some v := by
  induction l with
  | nil => simp [aset, alookup]
  | cons h t ih =>
    by_cases hk : k = h.1
    · simp [aset, alookup, hk]
    · simpa [aset, alookup, hk] using ih

/-! ## Claim C7: the `PodFitsResources` filter -/

/-- C7.  `PodFitsResources.Filter` returns `Success` exactly when the
snapshot's `FreeCap` list is empty (no committed placement or
reservation anywhere) or the free capacity at the queried ordinal is
strictly positive; in every other case it returns `Unschedulable` with
reason "pod at full capacity". -/
theorem claim_C7_podFitsResources (st : State) (podID : Int) :
    (podFitsResourcesFilter st podID = ⟨.success, []⟩ ↔
      (st.FreeCap = [] ∨ 0 < st.Free podID))
    ∧ (podFitsResourcesFilter st podID = ⟨.unschedulable, ["pod at full capacity"]⟩ ↔
      ¬(st.FreeCap = [] ∨ 0 < st.Free podID)) := by
  have hlen : st.FreeCap.length = 0 ↔ st.FreeCap = [] := List.length_eq_zero
  unfold podFitsResourcesFilter
  by_cases h : st.FreeCap.length = 0 ∨ 0 < st.Free podID
  · have h' : st.FreeCap = [] ∨ 0 < st.Free podID := (or_congr hlen Iff.rfl).mp h
    rw [if_pos h]
    exact ⟨by simp [h'], by simp [h']⟩
  · have h' : ¬(st.FreeCap = [] ∨ 0 < st.Free podID) :=
      fun hp => h ((or_congr hlen Iff.rfl).mpr hp)
    rw [if_neg h]
    exact ⟨by simp [h'], by simp [h']⟩

/-! ## Claim C2: reservation reconciliation in `withReserved` -/

/-- C2 counterexample.  The claim states that a reservation entry is
removed whenever the observed committed value is *greater than or
equal to* the reserved value.  Concretely: vpod (ns, a) has a committed
placement of 5 vreplicas on `pool-0` and a reservation of 3 there
(committed > reserved); after one state build the reservation entry is
still present — the code removes it only on equality (the explicit
`do nothing` branch of `withReserved` keeps it when committed exceeds
reserved). -/
theorem claim_C2_counterexample :
    (buildState 10 .maxfillup [⟨⟨"ns", "a"⟩, 5, [⟨"pool-0", 5⟩]⟩]
        [(⟨"ns", "a"⟩, [("pool-0", 3)])]).2
      = [(⟨"ns", "a"⟩, [("pool-0", 3)])]
    ∧ ((5 : Int) ≥ 3) := by
  exact ⟨by decide, by decide⟩

/-- C2 amended.  For a reservation entry (vpod, worker) with reserved
value `r` and observed committed value `committed`:
* if `committed < r` the entry is kept and the *reserved* value is the
  effective value subtracted from free capacity;
* if `committed = r` the effective value is the committed one and the
  state build removes the reservation entry;
* if `committed > r` the entry is *kept* (not cleared, contrary to the
  original claim) and the committed value is effective. -/
theorem claim_C2_amended (key : NamespacedName) (podName : String) (committed r : Int)
    (reserved : ReservedMap) (rps : List (String × Int))
    (hk : alookup key reserved = some rps) (hp : alookup podName rps = some r) :
    (committed < r → withReserved key podName committed reserved = (r, reserved))
    ∧ (committed = r →
        (withReserved key podName committed reserved).1 = committed
        ∧ alookup podName ((alookup key (withReserved key podName committed reserved).2).getD [])
            = none)
    ∧ (r < committed → withReserved key podName committed reserved = (committed, reserved)) := by
  simp only [withReserved, hk, hp]
  refine ⟨fun h => by rw [if_pos h], fun h => ?_, fun h => ?_⟩
  · subst h
    rw [if_neg (lt_irrefl committed), if_pos rfl]
    refine ⟨rfl, ?_⟩
    show alookup podName ((alookup key
      (if aerase podName rps = [] then aerase key reserved
       else aset key (aerase podName rps) reserved)).getD []) = none
    by_cases hempty : aerase podName rps = []
    · rw [if_pos hempty, alookup_aerase_self]
      rfl
    · rw [if_neg hempty, alookup_aset_self]
      simp only [Option.getD_some]
      exact alookup_aerase_self podName rps
  · rw [if_neg (not_lt.mpr h.le), if_neg (ne_of_gt h)]

/-- Witness for C2 amended at a concrete input (committed = reserved = 3). -/
theorem claim_C2_amended_witness :
    (alookup (⟨"ns", "a"⟩ : NamespacedName)
        [((⟨"ns", "a"⟩ : NamespacedName), [("pool-0", (3 : Int))])] = some [("pool-0", 3)])
    ∧ (alookup "pool-0" [("pool-0", (3 : Int))] = some 3)
    ∧ (((3 : Int) = 3 →
        (withReserved ⟨"ns", "a"⟩ "pool-0" 3 [(⟨"ns", "a"⟩, [("pool-0", 3)])]).1 = 3
        ∧ alookup "pool-0"
            ((alookup (⟨"ns", "a"⟩ : NamespacedName)
              (withReserved ⟨"ns", "a"⟩ "pool-0" 3 [(⟨"ns", "a"⟩, [("pool-0", 3)])]).2).getD [])
            = none)) :=
  ⟨by decide, by decide,
   (claim_C2_amended ⟨"ns", "a"⟩ "pool-0" 3 3 [(⟨"ns", "a"⟩, [("pool-0", 3)])]
      [("pool-0", 3)] (by decide) (by decide)).2.1⟩

/-! ## Claim C1: the state snapshot free-capacity accounting -/

/-- C1 code-bug evidence.  Input: vpod (ns, a) with one committed
placement (`pool-0`, 1) and reservations `pool-0 ↦ 5`, `pool-1 ↦ 3`
(in that iteration order).  The `pool-1` reservation has no observed
placement, so by the claim (and the spec's step 2) `FreeCap[1]` must be
`10 − 3 = 7`; but the `break` in the second loop of
`stateBuilder.State` abandons the remaining entries of the key after
meeting the already-accounted `pool-0` entry, so ordinal 1 is never
touched and its free capacity stays at the full capacity 10. -/
theorem claim_C1_break_bug :
    ((buildState 10 .maxfillup [⟨⟨"ns", "a"⟩, 5, [⟨"pool-0", 1⟩]⟩]
        [(⟨"ns", "a"⟩, [("pool-0", 5), ("pool-1", 3)])]).1.FreeCap = [5])
    ∧ ((buildState 10 .maxfillup [⟨⟨"ns", "a"⟩, 5, [⟨"pool-0", 1⟩]⟩]
        [(⟨"ns", "a"⟩, [("pool-0", 5), ("pool-1", 3)])]).1.Free 1 = 10)
    ∧ (alookup "pool-1"
        ((alookup (⟨"ns", "a"⟩ : NamespacedName)
          (buildState 10 .maxfillup [⟨⟨"ns", "a"⟩, 5, [⟨"pool-0", 1⟩]⟩]
            [(⟨"ns", "a"⟩, [("pool-0", 5), ("pool-1", 3)])]).2).getD []) = some 3)
    ∧ ¬((10 : Int) = 10 - 3) := by
  exact ⟨by decide, by decide, by decide, by decide⟩

/-! ## Lemmas about placement totals -/

theorem foldl_add_shift (l : List Placement) (a : Int) :
    l.foldl (fun t p => t + p.vreplicas) a = a + getTotalVReplicas l := by
  induction l generalizing a with
  | nil => simp [getTotalVReplicas]
  | cons p t ih =>
    show t.foldl _ (a + p.vreplicas) = a + getTotalVReplicas (p :: t)
    rw [ih]
    show a + p.vreplicas + getTotalVReplicas t = a + t.foldl _ (0 + p.vreplicas)
    rw [ih]
    ring

theorem getTotalVReplicas_cons (p : Placement) (l : List Placement) :
    getTotalVReplicas (p :: l) = p.vreplicas + getTotalVReplicas l := by
  show List.foldl _ (0 + p.vreplicas) l = _
  rw [foldl_add_shift]
  ring

theorem getTotalVReplicas_append (l₁ l₂ : List Placement) :
    getTotalVReplicas (l₁ ++ l₂) = getTotalVReplicas l₁ + getTotalVReplicas l₂ := by
  induction l₁ with
  | nil => simp [getTotalVReplicas]
  | cons p t ih => simp only [List.cons_append, getTotalVReplicas_cons, ih]; ring

theorem getTotalVReplicas_nonneg {l : List Placement} (h : ∀ p ∈ l, 0 ≤ p.vreplicas) :
    0 ≤ getTotalVReplicas l := by
  induction l with
  | nil => simp [getTotalVReplicas]
  | cons p t ih =>
    rw [getTotalVReplicas_cons]
    have h1 := h p (List.mem_cons_self p t)
    have h2 := ih fun q hq => h q (List.mem_cons_of_mem p hq)
    omega

theorem getTotalVReplicas_nil : getTotalVReplicas ([] : List Placement) = 0 := rfl

theorem getTotalVReplicas_singleton (p : Placement) :
    getTotalVReplicas [p] = p.vreplicas := by
  rw [getTotalVReplicas_cons, getTotalVReplicas_nil]
  ring

theorem getTotalVReplicas_reverse (l : List Placement) :
    getTotalVReplicas l.reverse = getTotalVReplicas l := by
  induction l with
  | nil => rfl
  | cons p t ih =>
    rw [List.reverse_cons, getTotalVReplicas_append, ih, getTotalVReplicas_singleton,
      getTotalVReplicas_cons]
    ring

/-! ## Claim C9: policy validation -/

theorem validatePolicy_aux (l : List PriorityPolicy) (acc : List String) :
    l.foldl (fun validationErrors priority =>
      if priority.weight ≤ 0 ∨ priority.weight ≥ MaxTotalWeight then
        validationErrors ++ ["priority should have a positive weight applied to it or it has overflown"]
      else validationErrors) acc = []
    ↔ acc = [] ∧ ∀ p ∈ l, 0 < p.weight ∧ p.weight < MaxTotalWeight := by
  induction l generalizing acc with
  | nil => simp
  | cons p t ih =>
    show (t.foldl _ (if p.weight ≤ 0 ∨ p.weight ≥ MaxTotalWeight then _ else acc) = []) ↔ _
    by_cases hp : p.weight ≤ 0 ∨ p.weight ≥ MaxTotalWeight
    · rw [if_pos hp, ih]
      simp only [List.append_eq_nil, List.mem_cons]
      constructor
      · rintro ⟨⟨-, hfalse⟩, -⟩
        cases hfalse
      · rintro ⟨-, hall⟩
        have := hall p (Or.inl rfl)
        omega
    · rw [if_neg hp, ih]
      push_neg at hp
      constructor
      · rintro ⟨hacc, hall⟩
        exact ⟨hacc, fun q hq => by
          rcases List.mem_cons.mp hq with h | h
          · subst h; exact ⟨hp.1, hp.2⟩
          · exact hall q h⟩
      · rintro ⟨hacc, hall⟩
        exact ⟨hacc, fun q hq => hall q (List.mem_cons_of_mem p hq)⟩

/-- C9.  `ValidatePolicy` returns an empty error list exactly when every
priority weight `w` satisfies `0 < w < MaxTotalWeight`; and when
validation fails on the plugin-policy path (no built-in policy type, a
plugin policy present, vreplica totals out of balance), `Schedule`
returns the error with a nil placement list and without touching the
pending or reserved tables or the autoscaler. -/
theorem claim_C9_validatePolicy (pol : SchedulerPolicy) (cfg : SchedulerCfg)
    (pending : PendingMap) (reserved : ReservedMap) (st : State) (vpod : VPod)
    (hpol : st.SchedulerPolicy = .unspecified) (hplug : cfg.policy = some pol)
    (hne : getTotalVReplicas vpod.placements ≠ vpod.vreplicas) :
    (ValidatePolicy pol = [] ↔ ∀ p ∈ pol.priorities, 0 < p.weight ∧ p.weight < MaxTotalWeight)
    ∧ (ValidatePolicy pol ≠ [] →
        Schedule cfg pending reserved st vpod
          = (⟨none, some .validatingPolicyFailed, pending, false⟩, reserved)) := by
  constructor
  · simpa using validatePolicy_aux pol.priorities []
  · intro hbad
    unfold Schedule scheduleVPod
    simp only [hpol, hplug, if_neg hne]
    simp only [ne_eq, not_true_eq_false, if_false, if_neg (fun h => hbad h), hbad]
    rfl

/-- Witness for C9 at a concrete input: a policy with weight 0 fails
validation and `Schedule` returns `(nil, error)`. -/
theorem claim_C9_validatePolicy_witness :
    (getTotalVReplicas ([] : List Placement) ≠ (1 : Int))
    ∧ (ValidatePolicy ⟨[], [⟨"LowestOrdinalPriority", 0⟩]⟩ = [] ↔
        ∀ p ∈ ([⟨"LowestOrdinalPriority", 0⟩] : List PriorityPolicy),
          0 < p.weight ∧ p.weight < MaxTotalWeight)
    ∧ (ValidatePolicy ⟨[], [⟨"LowestOrdinalPriority", 0⟩]⟩ ≠ [] →
        Schedule ⟨1, "pool", [], some ⟨[], [⟨"LowestOrdinalPriority", 0⟩]⟩, []⟩ [] []
          { FreeCap := [], LastOrdinal := -1, Capacity := 10, SchedulerPolicy := .unspecified }
          ⟨⟨"ns", "a"⟩, 1, []⟩
          = (⟨none, some .validatingPolicyFailed, [], false⟩, [])) := by
  refine ⟨by decide, ?_, ?_⟩
  · exact (claim_C9_validatePolicy ⟨[], [⟨"LowestOrdinalPriority", 0⟩]⟩
      ⟨1, "pool", [], some ⟨[], [⟨"LowestOrdinalPriority", 0⟩]⟩, []⟩ [] []
      { FreeCap := [], LastOrdinal := -1, Capacity := 10, SchedulerPolicy := .unspecified }
      ⟨⟨"ns", "a"⟩, 1, []⟩ rfl rfl (by decide)).1
  · exact (claim_C9_validatePolicy ⟨[], [⟨"LowestOrdinalPriority", 0⟩]⟩
      ⟨1, "pool", [], some ⟨[], [⟨"LowestOrdinalPriority", 0⟩]⟩, []⟩ [] []
      { FreeCap := [], LastOrdinal := -1, Capacity := 10, SchedulerPolicy := .unspecified }
      ⟨⟨"ns", "a"⟩, 1, []⟩ rfl rfl (by decide)).2

/-! ## Claim C10: the silent fall-through when no policy is configured -/

/-- C10.  With an empty `SchedulerPolicyType` and a nil plugin policy,
a vpod whose desired count differs from its committed total gets its
existing placements back (only stably re-sorted, so nothing is added or
removed), a nil error, and its pending entry deleted: the shortfall is
reported as success. -/
theorem claim_C10_silent_noop (cfg : SchedulerCfg) (pending : PendingMap)
    (reserved : ReservedMap) (st : State) (vpod : VPod)
    (hpol : st.SchedulerPolicy = .unspecified) (hplug : cfg.policy = none)
    (hne : getTotalVReplicas vpod.placements ≠ vpod.vreplicas) :
    (Schedule cfg pending reserved st vpod).1.placements
        = some (sortPlacements vpod.placements)
    ∧ (sortPlacements vpod.placements).Perm vpod.placements
    ∧ (Schedule cfg pending reserved st vpod).1.err = none
    ∧ (Schedule cfg pending reserved st vpod).1.pending = aerase vpod.key pending
    ∧ (Schedule cfg pending reserved st vpod).1.autoscaled = false := by
  have hsv : scheduleVPod cfg pending st vpod
      = ⟨some vpod.placements, none, aerase vpod.key pending, false⟩ := by
    unfold scheduleVPod
    simp only [hpol, hplug, if_neg hne]
    simp only [ne_eq, not_true_eq_false, if_false]
    unfold finishSchedule
    rw [if_neg (by omega : ¬(0 : Int) < 0)]
  unfold Schedule
  rw [hsv]
  exact ⟨rfl, List.mergeSort_perm vpod.placements _, rfl, rfl, rfl⟩

/-- Witness for C10 at a concrete input (desired 5, committed 3). -/
theorem claim_C10_silent_noop_witness :
    (getTotalVReplicas [⟨"pool-1", 1⟩, ⟨"pool-0", 2⟩] ≠ (5 : Int))
    ∧ ((Schedule ⟨2, "pool", [], none, []⟩ [(⟨"ns", "a"⟩, 9)] []
          { FreeCap := [8, 9], LastOrdinal := 1, Capacity := 10, SchedulerPolicy := .unspecified }
          ⟨⟨"ns", "a"⟩, 5, [⟨"pool-1", 1⟩, ⟨"pool-0", 2⟩]⟩).1.placements
        = some (sortPlacements [⟨"pool-1", 1⟩, ⟨"pool-0", 2⟩])) :=
  ⟨by decide,
   (claim_C10_silent_noop ⟨2, "pool", [], none, []⟩ [(⟨"ns", "a"⟩, 9)] []
      { FreeCap := [8, 9], LastOrdinal := 1, Capacity := 10, SchedulerPolicy := .unspecified }
      ⟨⟨"ns", "a"⟩, 5, [⟨"pool-1", 1⟩, ⟨"pool-0", 2⟩]⟩ rfl rfl (by decide)).1⟩

/-! ## Lemmas about `sortPlacements` -/

theorem sortPlacements_perm (l : List Placement) : (sortPlacements l).Perm l :=
  List.mergeSort_perm l _

theorem placementLE_trans : ∀ a b c : Placement,
    (decide (ordinalFromPodName a.podName ≤ ordinalFromPodName b.podName)) = true →
    (decide (ordinalFromPodName b.podName ≤ ordinalFromPodName c.podName)) = true →
    (decide (ordinalFromPodName a.podName ≤ ordinalFromPodName c.podName)) = true := by
  intro a b c hab hbc
  exact decide_eq_true (le_trans (of_decide_eq_true hab) (of_decide_eq_true hbc))

theorem placementLE_total : ∀ a b : Placement,
    ((decide (ordinalFromPodName a.podName ≤ ordinalFromPodName b.podName)) ||
     (decide (ordinalFromPodName b.podName ≤ ordinalFromPodName a.podName))) = true := by
  intro a b
  rcases le_total (ordinalFromPodName a.podName) (ordinalFromPodName b.podName) with h | h
  · simp [h]
  · simp [h]

theorem sortPlacements_sorted (l : List Placement) :
    List.Pairwise (fun a b => ordinalFromPodName a.podName ≤ ordinalFromPodName b.podName)
      (sortPlacements l) := by
  have h := List.sorted_mergeSort placementLE_trans placementLE_total l
  exact h.imp fun hab => of_decide_eq_true hab

theorem sortPlacements_of_sorted {l : List Placement}
    (h : List.Pairwise (fun a b => ordinalFromPodName a.podName ≤ ordinalFromPodName b.podName) l) :
    sortPlacements l = l :=
  List.mergeSort_of_sorted (h.imp fun hab => decide_eq_true hab)

theorem sortPlacements_pair_swap (a b : Placement)
    (h : ¬ ordinalFromPodName a.podName ≤ ordinalFromPodName b.podName) :
    sortPlacements [a, b] = [b, a] := by
  have hperm := sortPlacements_perm [a, b]
  have hsort := sortPlacements_sorted [a, b]
  have hlen : (sortPlacements [a, b]).length = 2 := by
    rw [hperm.length_eq]
    rfl
  obtain ⟨x, y, hxy⟩ := List.length_eq_two.mp hlen
  rw [hxy] at hperm hsort ⊢
  have hx : x = a ∨ x = b := by
    have := hperm.subset (List.mem_cons_self x [y])
    simpa using this
  rcases hx with hx | hx
  · have hy : y = b := by
      have h2 : [y].Perm [b] := by
        have h3 := hperm
        rw [hx] at h3
        exact h3.cons_inv
      simpa using h2.subset (List.mem_cons_self y [])
    exfalso
    rw [hx, hy] at hsort
    exact h (List.rel_of_pairwise_cons hsort (List.mem_cons_self b []))
  · have hy : y = a := by
      have hswap : ([a, b] : List Placement).Perm [b, a] := List.Perm.swap b a []
      have h2 : [y].Perm [a] := by
        have h3 := hperm.trans hswap
        rw [hx] at h3
        exact h3.cons_inv
      simpa using h2.subset (List.mem_cons_self y [])
    rw [hx, hy]

/-! ## Claim C4: idempotence when committed total equals desired -/

/-- C4 counterexample.  A vpod whose committed placements are listed
out of ordinal order ([pool-1, pool-0]) and whose total equals the
desired count gets back the *stably re-sorted* list [pool-0, pool-1],
not the existing list unchanged (the claim as stated requires the very
same list back). -/
theorem claim_C4_counterexample :
    getTotalVReplicas [⟨"pool-1", 1⟩, ⟨"pool-0", 1⟩] = (2 : Int)
    ∧ (Schedule ⟨2, "pool", [], none, []⟩ [] []
        { FreeCap := [9, 9], LastOrdinal := 1, Capacity := 10, SchedulerPolicy := .maxfillup }
        ⟨⟨"ns", "a"⟩, 2, [⟨"pool-1", 1⟩, ⟨"pool-0", 1⟩]⟩).1.placements
      = some [⟨"pool-0", 1⟩, ⟨"pool-1", 1⟩]
    ∧ ([(⟨"pool-0", 1⟩ : Placement), ⟨"pool-1", 1⟩] ≠ [⟨"pool-1", 1⟩, ⟨"pool-0", 1⟩]) := by
  refine ⟨by decide, ?_, by decide⟩
  show (Schedule _ _ _ _ _).1.placements = _
  unfold Schedule scheduleVPod
  rw [if_pos (by decide : getTotalVReplicas [⟨"pool-1", 1⟩, ⟨"pool-0", 1⟩] = (2 : Int))]
  show some (sortPlacements [⟨"pool-1", 1⟩, ⟨"pool-0", 1⟩]) = _
  rw [sortPlacements_pair_swap _ _ (by decide)]

/-- C4 amended.  When the committed total equals the desired count,
`Schedule` returns the existing placements only stably re-sorted by
ordinal — hence literally unchanged whenever the committed list is in
the canonical (sorted) order every `Schedule` output has — together
with a nil error, the vpod's pending entry removed, and no autoscale. -/
theorem claim_C4_amended (cfg : SchedulerCfg) (pending : PendingMap)
    (reserved : ReservedMap) (st : State) (vpod : VPod)
    (heq : getTotalVReplicas vpod.placements = vpod.vreplicas) :
    (Schedule cfg pending reserved st vpod).1.placements
        = some (sortPlacements vpod.placements)
    ∧ (List.Pairwise
        (fun a b => ordinalFromPodName a.podName ≤ ordinalFromPodName b.podName)
        vpod.placements →
       (Schedule cfg pending reserved st vpod).1.placements = some vpod.placements)
    ∧ (Schedule cfg pending reserved st vpod).1.err = none
    ∧ (Schedule cfg pending reserved st vpod).1.pending = aerase vpod.key pending
    ∧ (Schedule cfg pending reserved st vpod).1.autoscaled = false := by
  have hsv : scheduleVPod cfg pending st vpod
      = ⟨some vpod.placements, none, aerase vpod.key pending, false⟩ := by
    unfold scheduleVPod
    rw [if_pos heq]
  unfold Schedule
  rw [hsv]
  exact ⟨rfl, fun hs => by simp [sortPlacements_of_sorted hs], rfl, rfl, rfl⟩

/-- Witness for C4 amended at a concrete input (sorted committed list,
total 3 = desired). -/
theorem claim_C4_amended_witness :
    (getTotalVReplicas [⟨"pool-0", 1⟩, ⟨"pool-1", 2⟩] = (3 : Int))
    ∧ (List.Pairwise
        (fun a b => ordinalFromPodName a.podName ≤ ordinalFromPodName b.podName)
        [(⟨"pool-0", 1⟩ : Placement), ⟨"pool-1", 2⟩] →
       (Schedule ⟨2, "pool", [], none, []⟩ [(⟨"ns", "a"⟩, 7)] []
          { FreeCap := [9, 8], LastOrdinal := 1, Capacity := 10, SchedulerPolicy := .maxfillup }
          ⟨⟨"ns", "a"⟩, 3, [⟨"pool-0", 1⟩, ⟨"pool-1", 2⟩]⟩).1.placements
        = some [⟨"pool-0", 1⟩, ⟨"pool-1", 2⟩])
    ∧ ((Schedule ⟨2, "pool", [], none, []⟩ [(⟨"ns", "a"⟩, 7)] []
          { FreeCap := [9, 8], LastOrdinal := 1, Capacity := 10, SchedulerPolicy := .maxfillup }
          ⟨⟨"ns", "a"⟩, 3, [⟨"pool-0", 1⟩, ⟨"pool-1", 2⟩]⟩).1.pending
        = aerase ⟨"ns", "a"⟩ [(⟨"ns", "a"⟩, 7)]) := by
  have h := claim_C4_amended ⟨2, "pool", [], none, []⟩ [(⟨"ns", "a"⟩, 7)] []
    { FreeCap := [9, 8], LastOrdinal := 1, Capacity := 10, SchedulerPolicy := .maxfillup }
    ⟨⟨"ns", "a"⟩, 3, [⟨"pool-0", 1⟩, ⟨"pool-1", 2⟩]⟩ (by decide)
  exact ⟨by decide, h.2.1, h.2.2.2.1⟩

/-! ## Claim C8: returned placements are sorted by ordinal -/

/-- C8.  Every non-nil placement list returned by `Schedule` is sorted
by worker ordinal in ascending order, on every policy path (the sort is
applied uniformly to whatever `scheduleVPod` returns). -/
theorem claim_C8_sorted (cfg : SchedulerCfg) (pending : PendingMap)
    (reserved : ReservedMap) (st : State) (vpod : VPod) (ps : List Placement)
    (hret : (Schedule cfg pending reserved st vpod).1.placements = some ps) :
    List.Pairwise (fun a b => ordinalFromPodName a.podName ≤ ordinalFromPodName b.podName)
      ps := by
  rcases hsv : scheduleVPod cfg pending st vpod with ⟨ops, err, pend, auto⟩
  unfold Schedule at hret
  rw [hsv] at hret
  cases ops with
  | none => simp at hret
  | some ps₀ =>
    simp only [Option.some.injEq] at hret
    rw [← hret]
    exact sortPlacements_sorted ps₀

/-- Witness for C8 at a concrete input. -/
theorem claim_C8_sorted_witness :
    ((Schedule ⟨1, "pool", [], none, []⟩ [] []
        { FreeCap := [], LastOrdinal := -1, Capacity := 10, SchedulerPolicy := .maxfillup }
        ⟨⟨"ns", "a"⟩, 1, []⟩).1.placements
      = some (sortPlacements [⟨"pool-0", 1⟩]))
    ∧ List.Pairwise (fun a b => ordinalFromPodName a.podName ≤ ordinalFromPodName b.podName)
        (sortPlacements [⟨"pool-0", 1⟩]) :=
  ⟨rfl,
   claim_C8_sorted ⟨1, "pool", [], none, []⟩ [] []
     { FreeCap := [], LastOrdinal := -1, Capacity := 10, SchedulerPolicy := .maxfillup }
     ⟨⟨"ns", "a"⟩, 1, []⟩ (sortPlacements [⟨"pool-0", 1⟩]) rfl⟩

/-! ## Lemmas about `removeReplicas` (MAXFILLUP scale-down) -/

theorem removeRev_zero_of_pos (l : List Placement) (h : ∀ p ∈ l, 0 < p.vreplicas) :
    removeRev 0 l = l := by
  induction l with
  | nil => rfl
  | cons p t ih =>
    have hp := h p (List.mem_cons_self p t)
    unfold removeRev
    rw [if_neg (by omega : ¬(0 : Int) ≥ p.vreplicas)]
    rw [ih fun q hq => h q (List.mem_cons_of_mem p hq)]
    show ({ podName := p.podName, vreplicas := p.vreplicas - 0 } : Placement) :: t = p :: t
    rw [sub_zero]

theorem removeRev_sum (d : Int) (l : List Placement) (hd : 0 ≤ d)
    (hl : ∀ p ∈ l, 0 ≤ p.vreplicas) (hle : d ≤ getTotalVReplicas l) :
    getTotalVReplicas (removeRev d l) = getTotalVReplicas l - d := by
  induction l generalizing d with
  | nil =>
    have : getTotalVReplicas ([] : List Placement) = 0 := rfl
    unfold removeRev
    omega
  | cons p t ih =>
    have hp := hl p (List.mem_cons_self p t)
    have ht : ∀ q ∈ t, 0 ≤ q.vreplicas := fun q hq => hl q (List.mem_cons_of_mem p hq)
    have htot : getTotalVReplicas (p :: t) = p.vreplicas + getTotalVReplicas t :=
      getTotalVReplicas_cons p t
    have httot := getTotalVReplicas_nonneg ht
    unfold removeRev
    by_cases hcase : d ≥ p.vreplicas
    · rw [if_pos hcase]
      rw [ih (d - p.vreplicas) (by omega) ht (by omega)]
      omega
    · rw [if_neg hcase]
      rw [getTotalVReplicas_cons]
      rw [ih 0 (by omega) ht (by omega)]
      show p.vreplicas - d + (getTotalVReplicas t - 0) = _
      omega

theorem removeRev_struct (d : Int) (l : List Placement) (hd : 0 ≤ d)
    (hl : ∀ p ∈ l, 0 < p.vreplicas) (hle : d ≤ getTotalVReplicas l) :
    ∃ u v r, l = u ++ v ∧ d = getTotalVReplicas u + r ∧ 0 ≤ r ∧
      ((v = [] ∧ r = 0 ∧ removeRev d l = []) ∨
       (∃ p t, v = p :: t ∧ r < p.vreplicas ∧
         removeRev d l = ⟨p.podName, p.vreplicas - r⟩ :: t)) := by
  induction l generalizing d with
  | nil =>
    refine ⟨[], [], d, rfl, ?_, hd, Or.inl ⟨rfl, ?_, rfl⟩⟩
    · show d = 0 + d; omega
    · have : getTotalVReplicas ([] : List Placement) = 0 := rfl
      omega
  | cons p t ih =>
    have hp := hl p (List.mem_cons_self p t)
    have ht : ∀ q ∈ t, 0 < q.vreplicas := fun q hq => hl q (List.mem_cons_of_mem p hq)
    have htot := getTotalVReplicas_cons p t
    by_cases hcase : d ≥ p.vreplicas
    · obtain ⟨u, v, r, hsplit, hsum, hr, hshape⟩ :=
        ih (d - p.vreplicas) (by omega) ht (by omega)
      refine ⟨p :: u, v, r, by rw [hsplit]; rfl, ?_, hr, ?_⟩
      · rw [getTotalVReplicas_cons]
        omega
      · unfold removeRev
        rw [if_pos hcase]
        exact hshape
    · refine ⟨[], p :: t, d, rfl, ?_, hd, Or.inr ⟨p, t, rfl, by omega, ?_⟩⟩
      · show d = getTotalVReplicas [] + d
        have : getTotalVReplicas ([] : List Placement) = 0 := rfl
        omega
      · unfold removeRev
        rw [if_neg hcase, removeRev_zero_of_pos t ht]

theorem removeRev_names_sublist (d : Int) (l : List Placement) :
    ((removeRev d l).map (·.podName)).Sublist (l.map (·.podName)) := by
  induction l generalizing d with
  | nil => simp [removeRev]
  | cons p t ih =>
    unfold removeRev
    by_cases hcase : d ≥ p.vreplicas
    · rw [if_pos hcase]
      exact (ih (d - p.vreplicas)).trans (List.sublist_cons_self _ _)
    · rw [if_neg hcase]
      exact List.Sublist.cons₂ _ (ih 0)

/-! ## Claim C6: MAXFILLUP scale-down -/

/-- C6 counterexample.  `removeReplicas 3 [(pool-0, 0), (pool-1, 5)]`:
the surplus 3 is entirely absorbed by decrementing the trailing
placement pool-1 (5 → 2), so by the claim every other placement keeps
its vreplica count and pool-0 should survive with count 0; the code
drops it (`diff >= placements[i].VReplicas` holds for `0 >= 0` once the
surplus is exhausted), so the returned list has no pool-0 entry. -/
theorem claim_C6_counterexample :
    removeReplicas 3 [⟨"pool-0", 0⟩, ⟨"pool-1", 5⟩] = [⟨"pool-1", 2⟩]
    ∧ (∀ q ∈ removeReplicas 3 [⟨"pool-0", 0⟩, ⟨"pool-1", 5⟩], q.podName ≠ "pool-0")
    ∧ ((3 : Int) < 5) := by
  refine ⟨by decide, ?_, by decide⟩
  intro q hq
  have : q = ⟨"pool-1", 2⟩ := by
    have h : removeReplicas 3 [⟨"pool-0", 0⟩, ⟨"pool-1", 5⟩] = [⟨"pool-1", 2⟩] := by decide
    rw [h] at hq
    simpa using hq
  rw [this]
  decide

/-- C6 amended.  For strictly positive placements and a surplus `diff`
with `0 ≤ diff ≤ total`, `removeReplicas` consumes placements from the
highest ordinal downwards: a maximal suffix `u` of the reversed list is
dropped whole (`Σu ≤ diff`), at most one placement is decremented by
the remainder `r = diff − Σu`, every other survivor keeps its count and
its pod name (survivors are listed in reverse input order); the total
drops by exactly `diff`; zero-vreplica placements would additionally be
dropped once the surplus is exhausted (see the counterexample).  On
this scale-down branch the scheduler records no pending vreplicas,
triggers no autoscale and returns a nil error. -/
theorem claim_C6_amended (cfg : SchedulerCfg) (pending : PendingMap) (st : State)
    (vpod : VPod)
    (hpol : st.SchedulerPolicy = .maxfillup)
    (hgt : vpod.vreplicas < getTotalVReplicas vpod.placements)
    (hpos : ∀ p ∈ vpod.placements, 0 < p.vreplicas)
    (hdes : 0 ≤ vpod.vreplicas) :
    scheduleVPod cfg pending st vpod
      = ⟨some (removeReplicas (getTotalVReplicas vpod.placements - vpod.vreplicas)
          vpod.placements), none, pending, false⟩
    ∧ getTotalVReplicas (removeReplicas (getTotalVReplicas vpod.placements - vpod.vreplicas)
        vpod.placements) = vpod.vreplicas
    ∧ (((removeReplicas (getTotalVReplicas vpod.placements - vpod.vreplicas)
        vpod.placements).map (·.podName)).Sublist ((vpod.placements.map (·.podName)).reverse))
    ∧ (∃ u v r, vpod.placements.reverse = u ++ v
        ∧ getTotalVReplicas vpod.placements - vpod.vreplicas = getTotalVReplicas u + r
        ∧ 0 ≤ r
        ∧ ((v = [] ∧ r = 0
              ∧ removeReplicas (getTotalVReplicas vpod.placements - vpod.vreplicas)
                  vpod.placements = [])
           ∨ (∃ p t, v = p :: t ∧ r < p.vreplicas
              ∧ removeReplicas (getTotalVReplicas vpod.placements - vpod.vreplicas)
                  vpod.placements = ⟨p.podName, p.vreplicas - r⟩ :: t))) := by
  have hposrev : ∀ p ∈ vpod.placements.reverse, 0 < p.vreplicas := by
    intro p hp
    exact hpos p (List.mem_reverse.mp hp)
  have hnonnegrev : ∀ p ∈ vpod.placements.reverse, 0 ≤ p.vreplicas := by
    intro p hp
    exact le_of_lt (hposrev p hp)
  have hrevtot : getTotalVReplicas vpod.placements.reverse
      = getTotalVReplicas vpod.placements := getTotalVReplicas_reverse _
  refine ⟨?_, ?_, ?_, ?_⟩
  · unfold scheduleVPod
    rw [if_neg (by omega : ¬getTotalVReplicas vpod.placements = vpod.vreplicas)]
    rw [if_pos (by rw [hpol]; decide), if_pos (by omega)]
    rw [hpol]
    rfl
  · unfold removeReplicas
    rw [removeRev_sum _ _ (by omega) hnonnegrev (by omega)]
    omega
  · rw [← List.map_reverse]
    exact removeRev_names_sublist _ _
  · obtain ⟨u, v, r, hsplit, hsum, hr, hshape⟩ :=
      removeRev_struct (getTotalVReplicas vpod.placements - vpod.vreplicas)
        vpod.placements.reverse (by omega) hposrev (by omega)
    exact ⟨u, v, r, hsplit, hsum, hr, hshape⟩

/-- Witness for C6 amended: capacity surplus 7 over
[(pool-0, 5), (pool-1, 5), (pool-2, 3)] with desired 6. -/
theorem claim_C6_amended_witness :
    ((6 : Int) < getTotalVReplicas [⟨"pool-0", 5⟩, ⟨"pool-1", 5⟩, ⟨"pool-2", 3⟩])
    ∧ (∀ p ∈ ([⟨"pool-0", 5⟩, ⟨"pool-1", 5⟩, ⟨"pool-2", 3⟩] : List Placement), 0 < p.vreplicas)
    ∧ scheduleVPod ⟨3, "pool", [], none, []⟩ []
        { FreeCap := [5, 5, 7], LastOrdinal := 2, Capacity := 10, SchedulerPolicy := .maxfillup }
        ⟨⟨"ns", "a"⟩, 6, [⟨"pool-0", 5⟩, ⟨"pool-1", 5⟩, ⟨"pool-2", 3⟩]⟩
      = ⟨some (removeReplicas
            (getTotalVReplicas [⟨"pool-0", 5⟩, ⟨"pool-1", 5⟩, ⟨"pool-2", 3⟩] - 6)
            [⟨"pool-0", 5⟩, ⟨"pool-1", 5⟩, ⟨"pool-2", 3⟩]), none, [], false⟩
    ∧ getTotalVReplicas (removeReplicas
          (getTotalVReplicas [⟨"pool-0", 5⟩, ⟨"pool-1", 5⟩, ⟨"pool-2", 3⟩] - 6)
          [⟨"pool-0", 5⟩, ⟨"pool-1", 5⟩, ⟨"pool-2", 3⟩]) = 6 := by
  have h := claim_C6_amended ⟨3, "pool", [], none, []⟩ []
    { FreeCap := [5, 5, 7], LastOrdinal := 2, Capacity := 10, SchedulerPolicy := .maxfillup }
    ⟨⟨"ns", "a"⟩, 6, [⟨"pool-0", 5⟩, ⟨"pool-1", 5⟩, ⟨"pool-2", 3⟩]⟩
    rfl (by decide) (by decide) (by decide)
  exact ⟨by decide, by decide, h.1, h.2.1⟩

/-! ## Lemmas about `addReplicas` (MAXFILLUP scale-up) -/

theorem addReplicasExisting_spec (ps : List Placement) (st : State) (diff : Int)
    (hd : 0 ≤ diff) :
    getTotalVReplicas (addReplicasExisting st diff ps).1
        = getTotalVReplicas ps + (diff - (addReplicasExisting st diff ps).2.1)
    ∧ 0 ≤ (addReplicasExisting st diff ps).2.1
    ∧ (addReplicasExisting st diff ps).2.1 ≤ diff := by
  induction ps generalizing st diff with
  | nil =>
    simp only [addReplicasExisting, getTotalVReplicas_nil]
    omega
  | cons p t ih =>
    unfold addReplicasExisting
    by_cases hguard : 0 ≤ diff ∧ 0 < st.Free (ordinalFromPodName p.podName)
    · rw [if_pos hguard]
      simp only [getTotalVReplicas_cons]
      have halloc : 0 ≤ min (st.Free (ordinalFromPodName p.podName)) diff :=
        le_min (le_of_lt hguard.2) hguard.1
      have halloc2 : min (st.Free (ordinalFromPodName p.podName)) diff ≤ diff :=
        min_le_right _ _
      obtain ⟨ihs, ihl, ihu⟩ := ih
        (st.SetFree (ordinalFromPodName p.podName)
          (st.Free (ordinalFromPodName p.podName)
            - min (st.Free (ordinalFromPodName p.podName)) diff))
        (diff - min (st.Free (ordinalFromPodName p.podName)) diff)
        (by omega)
      refine ⟨by omega, by omega, by omega⟩
    · rw [if_neg hguard]
      simp only [getTotalVReplicas_cons]
      obtain ⟨ihs, ihl, ihu⟩ := ih st diff hd
      refine ⟨by omega, ihl, ihu⟩

theorem addReplicasNew_spec (sname : String) (ords : List Int) (st : State) (diff : Int)
    (hd : 0 ≤ diff) :
    getTotalVReplicas (addReplicasNew sname ords st diff).1
        = diff - (addReplicasNew sname ords st diff).2.1
    ∧ 0 ≤ (addReplicasNew sname ords st diff).2.1
    ∧ (addReplicasNew sname ords st diff).2.1 ≤ diff := by
  induction ords generalizing st diff with
  | nil =>
    simp only [addReplicasNew, getTotalVReplicas_nil]
    omega
  | cons ordinal rest ih =>
    unfold addReplicasNew
    simp only []
    by_cases hf : 0 < st.Free ordinal
    · rw [if_pos hf]
      simp only []
      have halloc : 0 ≤ min (st.Free ordinal) diff := le_min (le_of_lt hf) hd
      have halloc2 : min (st.Free ordinal) diff ≤ diff := min_le_right _ _
      by_cases hzero : diff - min (st.Free ordinal) diff = 0
      · rw [if_pos hzero]
        simp only [getTotalVReplicas_singleton]
        omega
      · rw [if_neg hzero]
        obtain ⟨ihs, ihl, ihu⟩ := ih
          (st.SetFree ordinal (st.Free ordinal - min (st.Free ordinal) diff))
          (diff - min (st.Free ordinal) diff) (by omega)
        simp only [List.singleton_append, getTotalVReplicas_cons]
        refine ⟨by omega, by omega, by omega⟩
    · rw [if_neg hf]
      simp only []
      by_cases hzero : diff = 0
      · rw [if_pos hzero]
        simp only [getTotalVReplicas_nil]
        omega
      · rw [if_neg hzero]
        obtain ⟨ihs, ihl, ihu⟩ := ih st diff hd
        simp only [List.nil_append]
        exact ⟨ihs, ihl, ihu⟩

theorem addReplicas_spec (replicas : Int) (sname : String) (st : State) (diff : Int)
    (ps : List Placement) (hd : 0 ≤ diff) :
    getTotalVReplicas (addReplicas replicas sname st diff ps).1
        = getTotalVReplicas ps + (diff - (addReplicas replicas sname st diff ps).2.1)
    ∧ 0 ≤ (addReplicas replicas sname st diff ps).2.1
    ∧ (addReplicas replicas sname st diff ps).2.1 ≤ diff := by
  unfold addReplicas
  obtain ⟨h1, h2, h3⟩ := addReplicasExisting_spec ps st diff hd
  by_cases hc : 0 < (addReplicasExisting st diff ps).2.1
  · rw [if_pos hc]
    obtain ⟨g1, g2, g3⟩ := addReplicasNew_spec sname (rangeInts replicas)
      (addReplicasExisting st diff ps).2.2 (addReplicasExisting st diff ps).2.1 (by omega)
    simp only [getTotalVReplicas_append]
    refine ⟨by omega, by omega, by omega⟩
  · rw [if_neg hc]
    exact ⟨h1, h2, h3⟩

/-! ## Claim C3: MAXFILLUP scale-up conservation and the pending path -/

/-- C3.  On the MAXFILLUP scale-up path (`desired > committed total`),
with `(newPlacements, left) = addReplicas(state, desired - total,
placements)`: the vreplicas across `newPlacements` plus `left` equal
`desired`, with `0 ≤ left ≤ desired - total`; and when `left > 0` the
scheduler records `pending[vpod.key] = left`, pokes the autoscaler and
returns `ErrNotEnoughReplicas` together with the partial placements
(sorted by `Schedule`). -/
theorem claim_C3_conservation (cfg : SchedulerCfg) (pending : PendingMap)
    (reserved : ReservedMap) (st : State) (vpod : VPod)
    (np : List Placement) (left : Int) (st' : State)
    (hpol : st.SchedulerPolicy = .maxfillup)
    (hlt : getTotalVReplicas vpod.placements < vpod.vreplicas)
    (hadd : addReplicas cfg.replicas cfg.statefulSetName st
        (vpod.vreplicas - getTotalVReplicas vpod.placements) vpod.placements
      = (np, left, st')) :
    getTotalVReplicas np + left = vpod.vreplicas
    ∧ 0 ≤ left ∧ left ≤ vpod.vreplicas - getTotalVReplicas vpod.placements
    ∧ (0 < left →
        scheduleVPod cfg pending st vpod
          = ⟨some np, some .notEnoughReplicas, aset vpod.key left pending, true⟩)
    ∧ (0 < left →
        (Schedule cfg pending reserved st vpod).1
          = ⟨some (sortPlacements np), some .notEnoughReplicas,
             aset vpod.key left pending, true⟩) := by
  obtain ⟨h1, h2, h3⟩ := addReplicas_spec cfg.replicas cfg.statefulSetName st
    (vpod.vreplicas - getTotalVReplicas vpod.placements) vpod.placements (by omega)
  rw [hadd] at h1 h2 h3
  simp only [] at h1 h2 h3
  have hsv : 0 < left → scheduleVPod cfg pending st vpod
      = ⟨some np, some .notEnoughReplicas, aset vpod.key left pending, true⟩ := by
    intro hleft
    unfold scheduleVPod
    rw [if_neg (by omega : ¬getTotalVReplicas vpod.placements = vpod.vreplicas)]
    rw [if_pos (by rw [hpol]; decide), if_neg (by omega)]
    rw [hpol]
    show finishSchedule vpod.key pending
      (addReplicas cfg.replicas cfg.statefulSetName st _ vpod.placements).1
      (addReplicas cfg.replicas cfg.statefulSetName st _ vpod.placements).2.1 = _
    rw [hadd]
    unfold finishSchedule
    rw [if_pos hleft]
  refine ⟨by omega, h2, h3, hsv, fun hleft => ?_⟩
  unfold Schedule
  rw [hsv hleft]

/-- Witness for C3: spec scenario 5 (capacity 2, two workers, desired
10 from nothing): 4 vreplicas are placed, 6 are left pending with
`ErrNotEnoughReplicas`. -/
theorem claim_C3_conservation_witness :
    (getTotalVReplicas ([] : List Placement) < (10 : Int))
    ∧ (addReplicas 2 "pool"
        { FreeCap := [], LastOrdinal := -1, Capacity := 2, SchedulerPolicy := .maxfillup }
        (10 - getTotalVReplicas ([] : List Placement)) []
      = ([⟨"pool-0", 2⟩, ⟨"pool-1", 2⟩], 6,
         { FreeCap := [0, 0], LastOrdinal := -1, Capacity := 2,
           SchedulerPolicy := .maxfillup }))
    ∧ getTotalVReplicas [(⟨"pool-0", 2⟩ : Placement), ⟨"pool-1", 2⟩] + 6 = 10
    ∧ ((0 : Int) < 6 →
        scheduleVPod ⟨2, "pool", [], none, []⟩ []
          { FreeCap := [], LastOrdinal := -1, Capacity := 2, SchedulerPolicy := .maxfillup }
          ⟨⟨"ns", "a"⟩, 10, []⟩
        = ⟨some [⟨"pool-0", 2⟩, ⟨"pool-1", 2⟩], some .notEnoughReplicas,
           aset ⟨"ns", "a"⟩ 6 [], true⟩) := by
  have h := claim_C3_conservation ⟨2, "pool", [], none, []⟩ [] []
    { FreeCap := [], LastOrdinal := -1, Capacity := 2, SchedulerPolicy := .maxfillup }
    ⟨⟨"ns", "a"⟩, 10, []⟩ [⟨"pool-0", 2⟩, ⟨"pool-1", 2⟩] 6
    { FreeCap := [0, 0], LastOrdinal := -1, Capacity := 2, SchedulerPolicy := .maxfillup }
    rfl (by decide) (by decide)
  exact ⟨by decide, by decide, h.1, h.2.2.2.1⟩

/-! ## The pod-name / ordinal round trip -/

theorem digitVal_digitChar (d : Nat) (h : d < 10) : digitVal (Nat.digitChar d) = some d := by
  interval_cases d <;> decide

theorem digitChar_ne_dash (d : Nat) (h : d < 10) : Nat.digitChar d ≠ '-' := by
  interval_cases d <;> decide

theorem digitChar_ne_plus (d : Nat) (h : d < 10) : Nat.digitChar d ≠ '+' := by
  interval_cases d <;> decide

theorem digitsValAux_cons (c : Char) (t : List Char) (acc : Nat) :
    digitsValAux (c :: t) acc
      = match digitVal c with
        | some d => digitsValAux t (acc * 10 + d)
        | none => none := rfl

theorem digitsValAux_append (l₁ l₂ : List Char) (acc m : Nat)
    (h : digitsValAux l₁ acc = some m) :
    digitsValAux (l₁ ++ l₂) acc = digitsValAux l₂ m := by
  induction l₁ generalizing acc with
  | nil =>
    unfold digitsValAux at h
    injection h with h
    rw [List.nil_append, h]
  | cons c t ih =>
    rw [digitsValAux_cons] at h
    show digitsValAux (c :: (t ++ l₂)) acc = digitsValAux l₂ m
    rw [digitsValAux_cons]
    cases hdc : digitVal c with
    | none =>
      simp only [hdc] at h
      exact Option.noConfusion h
    | some dd =>
      simp only [hdc] at h ⊢
      exact ih _ h

theorem itoaNatAux_spec : ∀ (fuel n : Nat), n < fuel →
    itoaNatAux fuel n ≠ []
    ∧ (∀ c ∈ itoaNatAux fuel n, ∃ d, d < 10 ∧ c = Nat.digitChar d)
    ∧ digitsValAux (itoaNatAux fuel n) 0 = some n := by
  intro fuel
  induction fuel with
  | zero => intro n h; omega
  | succ fuel ih =>
    intro n h
    unfold itoaNatAux
    by_cases hn : n < 10
    · rw [if_pos hn]
      refine ⟨by simp, ?_, ?_⟩
      · intro c hc
        simp only [List.mem_singleton] at hc
        exact ⟨n, hn, hc⟩
      · unfold digitsValAux
        rw [digitVal_digitChar n hn]
        show digitsValAux [] (0 * 10 + n) = some n
        unfold digitsValAux
        congr 1
        omega
    · rw [if_neg hn]
      have hdivlt : n / 10 < n := Nat.div_lt_self (by omega) (by omega)
      obtain ⟨hne, hdig, hval⟩ := ih (n / 10) (by omega)
      refine ⟨by simp [hne], ?_, ?_⟩
      · intro c hc
        rcases List.mem_append.mp hc with h1 | h1
        · exact hdig c h1
        · simp only [List.mem_singleton] at h1
          exact ⟨n % 10, Nat.mod_lt n (by omega), h1⟩
      · rw [digitsValAux_append _ _ _ _ hval]
        unfold digitsValAux
        rw [digitVal_digitChar (n % 10) (Nat.mod_lt n (by omega))]
        show digitsValAux [] (n / 10 * 10 + n % 10) = some n
        unfold digitsValAux
        congr 1
        omega

theorem itoaNat_spec (n : Nat) :
    itoaNat n ≠ []
    ∧ (∀ c ∈ itoaNat n, ∃ d, d < 10 ∧ c = Nat.digitChar d)
    ∧ digitsVal (itoaNat n) = some n := by
  obtain ⟨h1, h2, h3⟩ := itoaNatAux_spec (n + 1) n (by omega)
  refine ⟨h1, h2, ?_⟩
  show digitsVal (itoaNatAux (n + 1) n) = some n
  unfold digitsVal
  cases hc : itoaNatAux (n + 1) n with
  | nil => exact absurd hc h1
  | cons c t =>
    rw [hc] at h3
    exact h3

theorem takeWhile_append_of_all {p : Char → Bool} (xs ys : List Char)
    (h : ∀ c ∈ xs, p c = true) :
    (xs ++ ys).takeWhile p = xs ++ ys.takeWhile p := by
  induction xs with
  | nil => rfl
  | cons c t ih =>
    rw [List.cons_append, List.takeWhile_cons, if_pos (h c (List.mem_cons_self c t)),
      ih fun c hc => h c (List.mem_cons_of_mem _ hc), List.cons_append]

theorem afterLastDash_append (pre digits : List Char) (h : ∀ c ∈ digits, c ≠ '-') :
    afterLastDash (pre ++ '-' :: digits) = digits := by
  unfold afterLastDash
  have hrev : (pre ++ '-' :: digits).reverse = digits.reverse ++ '-' :: pre.reverse := by
    rw [List.reverse_append, List.reverse_cons, List.append_assoc]
    rfl
  rw [hrev, takeWhile_append_of_all _ _ (fun c hc =>
    decide_eq_true (h c (List.mem_reverse.mp hc)))]
  rw [List.takeWhile_cons, if_neg (by decide), List.append_nil, List.reverse_reverse]

theorem mem_takeWhile_pred {p : Char → Bool} :
    ∀ {l : List Char} {c : Char}, c ∈ l.takeWhile p → p c = true := by
  intro l
  induction l with
  | nil => intro c hc; simp [List.takeWhile_nil] at hc
  | cons a t ih =>
    intro c hc
    rw [List.takeWhile_cons] at hc
    by_cases hpa : p a
    · rw [if_pos hpa] at hc
      rcases List.mem_cons.mp hc with h | h
      · rw [h]; exact hpa
      · exact ih h
    · rw [if_neg hpa] at hc
      simp at hc

theorem mem_afterLastDash_ne_dash (l : List Char) : ∀ c ∈ afterLastDash l, c ≠ '-' := by
  intro c hc
  unfold afterLastDash at hc
  have h1 : c ∈ (l.reverse.takeWhile (fun c => decide (c ≠ '-'))) := List.mem_reverse.mp hc
  exact of_decide_eq_true (mem_takeWhile_pred h1)

theorem parseInt32_nonneg (l : List Char) (hl : ∀ c ∈ l, c ≠ '-') (n : Int)
    (h : parseInt32 l = some n) : 0 ≤ n ∧ n ≤ maxInt32 := by
  cases l with
  | nil => exact Option.noConfusion h
  | cons c t =>
    simp only [parseInt32] at h
    by_cases hp : c = '+'
    · rw [if_pos hp] at h
      cases hd : digitsVal t with
      | none => rw [hd] at h; cases h
      | some m =>
        rw [hd] at h
        simp only [Option.some_bind] at h
        by_cases hr : (m : Int) ≤ maxInt32
        · rw [if_pos hr] at h
          injection h with h
          omega
        · rw [if_neg hr] at h; cases h
    · rw [if_neg hp, if_neg (hl c (List.mem_cons_self c t))] at h
      cases hd : digitsVal (c :: t) with
      | none => rw [hd] at h; cases h
      | some m =>
        rw [hd] at h
        simp only [Option.some_bind] at h
        by_cases hr : (m : Int) ≤ maxInt32
        · rw [if_pos hr] at h
          injection h with h
          omega
        · rw [if_neg hr] at h; cases h

theorem ordinalFromPodName_bounds (s : String) :
    0 ≤ ordinalFromPodName s ∧ ordinalFromPodName s ≤ maxInt32 := by
  unfold ordinalFromPodName
  cases hp : parseInt32 (afterLastDash s.data) with
  | none => exact ⟨by decide, le_refl _⟩
  | some n => exact parseInt32_nonneg _ (mem_afterLastDash_ne_dash s.data) n hp

theorem ordinalFromPodName_nonneg (s : String) : 0 ≤ ordinalFromPodName s :=
  (ordinalFromPodName_bounds s).1

theorem podNameFromOrdinal_data (name : String) (ord : Int) (h0 : 0 ≤ ord) :
    (podNameFromOrdinal name ord).data = name.data ++ '-' :: itoaNat ord.toNat := by
  show (name ++ "-" ++ itoa ord).data = _
  rw [String.data_append, String.data_append]
  unfold itoa
  rw [if_neg (not_lt.mpr h0)]
  rw [List.append_assoc]
  rfl

theorem ordinalFromPodName_roundtrip (name : String) (ord : Int)
    (h0 : 0 ≤ ord) (h1 : ord ≤ maxInt32) :
    ordinalFromPodName (podNameFromOrdinal name ord) = ord := by
  obtain ⟨hne, hdig, hval⟩ := itoaNat_spec ord.toNat
  have hnd : ∀ c ∈ itoaNat ord.toNat, c ≠ '-' := by
    intro c hc
    obtain ⟨d, hd10, hcd⟩ := hdig c hc
    rw [hcd]
    exact digitChar_ne_dash d hd10
  unfold ordinalFromPodName
  rw [podNameFromOrdinal_data name ord h0, afterLastDash_append _ _ hnd]
  cases hc : itoaNat ord.toNat with
  | nil => exact absurd hc hne
  | cons c t =>
    have hcd : ∃ d, d < 10 ∧ c = Nat.digitChar d := hdig c (hc ▸ List.mem_cons_self c t)
    obtain ⟨d, hd10, hcd⟩ := hcd
    simp only [parseInt32]
    rw [if_neg (hcd ▸ digitChar_ne_plus d hd10), if_neg (hcd ▸ digitChar_ne_dash d hd10)]
    rw [← hc, hval]
    simp only [Option.some_bind]
    rw [if_pos (by rw [Int.toNat_of_nonneg h0]; exact h1)]
    rw [Int.toNat_of_nonneg h0]

theorem podNameFromOrdinal_inj (name : String) (o1 o2 : Int)
    (h0 : 0 ≤ o1) (h1 : o1 ≤ maxInt32) (h2 : 0 ≤ o2) (h3 : o2 ≤ maxInt32)
    (h : podNameFromOrdinal name o1 = podNameFromOrdinal name o2) : o1 = o2 := by
  rw [← ordinalFromPodName_roundtrip name o1 h0 h1, h,
    ordinalFromPodName_roundtrip name o2 h2 h3]

/-! ## Lemmas about `State.Free` and `State.SetFree` -/

theorem grow_length (slice : List Int) (ord dflt : Int) (h : 0 ≤ ord) :
    ((grow slice ord dflt).length : Int) = max (slice.length : Int) (ord + 1) := by
  unfold grow
  simp only []
  by_cases hc : ord - (slice.length : Int) + 1 ≤ 0
  · rw [if_pos hc, max_eq_left (by omega)]
  · rw [if_neg hc, List.length_append, List.length_replicate]
    have htn : ((ord - (slice.length : Int) + 1).toNat : Int)
        = ord - (slice.length : Int) + 1 := Int.toNat_of_nonneg (by omega)
    rw [max_eq_right (by omega)]
    push_cast
    omega

theorem grow_getD (slice : List Int) (ord dflt : Int) (n : Nat) :
    (grow slice ord dflt).getD n 0
      = if n < slice.length then slice.getD n 0
        else if (n : Int) ≤ ord then dflt else 0 := by
  unfold grow
  simp only []
  by_cases hc : ord - (slice.length : Int) + 1 ≤ 0
  · rw [if_pos hc]
    by_cases hn : n < slice.length
    · rw [if_pos hn]
    · rw [if_neg hn]
      rw [if_neg (by omega)]
      rw [List.getD_eq_getElem?_getD, List.getElem?_eq_none (by omega)]
      rfl
  · rw [if_neg hc]
    by_cases hn : n < slice.length
    · rw [if_pos hn, List.getD_append _ _ _ _ hn]
    · rw [if_neg hn, List.getD_append_right _ _ _ _ (by omega)]
      rw [List.getD_eq_getElem?_getD, List.getElem?_replicate]
      have htn : ((ord - (slice.length : Int) + 1).toNat : Int)
          = ord - (slice.length : Int) + 1 := Int.toNat_of_nonneg (by omega)
      by_cases hb : (n : Int) ≤ ord
      · rw [if_pos (by omega), if_pos hb]
        rfl
      · rw [if_neg (by omega), if_neg hb]
        rfl

theorem SetFree_Capacity (st : State) (ord v : Int) :
    (st.SetFree ord v).Capacity = st.Capacity := rfl

theorem SetFree_NodeToZoneMap (st : State) (ord v : Int) :
    (st.SetFree ord v).NodeToZoneMap = st.NodeToZoneMap := rfl

theorem SetFree_SchedulerPolicy (st : State) (ord v : Int) :
    (st.SetFree ord v).SchedulerPolicy = st.SchedulerPolicy := rfl

theorem Free_SetFree_self (st : State) (ord v : Int) (h : 0 ≤ ord) :
    (st.SetFree ord v).Free ord = v := by
  unfold State.SetFree State.Free
  simp only [List.length_set]
  have hlen := grow_length st.FreeCap ord st.Capacity h
  rw [if_neg (by omega)]
  rw [List.getD_eq_getElem?_getD, List.getElem?_set_self (by omega), Option.getD_some]

theorem Free_SetFree_ne (st : State) (ord v ord' : Int)
    (h : 0 ≤ ord) (h' : 0 ≤ ord') (hne : ord ≠ ord') :
    (st.SetFree ord v).Free ord' = st.Free ord' := by
  unfold State.SetFree State.Free
  simp only [List.length_set]
  have hlen := grow_length st.FreeCap ord st.Capacity h
  have hnatne : ord.toNat ≠ ord'.toNat := by omega
  by_cases hin : ((grow st.FreeCap ord st.Capacity).length : Int) ≤ ord'
  · rw [if_pos hin, if_pos (by omega)]
  · rw [if_neg hin]
    rw [List.getD_eq_getElem?_getD, List.getElem?_set_ne hnatne,
      ← List.getD_eq_getElem?_getD]
    rw [grow_getD]
    by_cases hn : ord'.toNat < st.FreeCap.length
    · rw [if_pos hn, if_neg (by omega)]
    · rw [if_neg hn, if_pos (by omega), if_pos (by omega)]

theorem Free_SetFree_le (st : State) (ord v ord' : Int)
    (h : 0 ≤ ord) (h' : 0 ≤ ord') (hv : v ≤ st.Free ord) :
    (st.SetFree ord v).Free ord' ≤ st.Free ord' := by
  by_cases heq : ord = ord'
  · subst heq
    rw [Free_SetFree_self st ord v h]
    exact hv
  · rw [Free_SetFree_ne st ord v ord' h h' heq]

/-! ## Well-formedness predicates on placement lists -/

/-- The data-model invariant: at most one entry per pod name. -/
def NamesNodup (l : List Placement) : Prop := (l.map (·.podName)).Nodup

/-- The data-model invariant: no negative vreplica count. -/
def NonNegVR (l : List Placement) : Prop := ∀ p ∈ l, 0 ≤ p.vreplicas

/-- Pod names in the canonical `<statefulset>-<ordinal>` form this
scheduler itself produces. -/
def Canonical (sname : String) (l : List Placement) : Prop :=
  ∀ p ∈ l, ∃ ord : Int, 0 ≤ ord ∧ ord ≤ maxInt32 ∧ p.podName = podNameFromOrdinal sname ord

theorem canonical_ordinal {sname : String} {l : List Placement} (hc : Canonical sname l)
    {p : Placement} (hp : p ∈ l) :
    p.podName = podNameFromOrdinal sname (ordinalFromPodName p.podName) := by
  obtain ⟨ord, h0, h1, hname⟩ := hc p hp
  rw [hname, ordinalFromPodName_roundtrip sname ord h0 h1]

/-! ## MAXFILLUP scale-up: shape lemmas -/

theorem addReplicasExisting_names (ps : List Placement) (st : State) (diff : Int) :
    (addReplicasExisting st diff ps).1.map (·.podName) = ps.map (·.podName) := by
  induction ps generalizing st diff with
  | nil => rfl
  | cons p t ih =>
    unfold addReplicasExisting
    by_cases hguard : 0 ≤ diff ∧ 0 < st.Free (ordinalFromPodName p.podName)
    · rw [if_pos hguard]
      simp only [List.map_cons]
      rw [ih]
    · rw [if_neg hguard]
      simp only [List.map_cons]
      rw [ih]

theorem addReplicasExisting_nonneg (ps : List Placement) (st : State) (diff : Int)
    (hd : 0 ≤ diff) (hnn : NonNegVR ps) :
    NonNegVR (addReplicasExisting st diff ps).1 := by
  induction ps generalizing st diff with
  | nil => intro q hq; simp [addReplicasExisting] at hq
  | cons p t ih =>
    have hp := hnn p (List.mem_cons_self p t)
    have ht : NonNegVR t := fun q hq => hnn q (List.mem_cons_of_mem p hq)
    unfold addReplicasExisting
    by_cases hguard : 0 ≤ diff ∧ 0 < st.Free (ordinalFromPodName p.podName)
    · rw [if_pos hguard]
      intro q hq
      simp only [List.mem_cons] at hq
      rcases hq with hq | hq
      · rw [hq]
        have : 0 ≤ min (st.Free (ordinalFromPodName p.podName)) diff :=
          le_min (le_of_lt hguard.2) hguard.1
        show 0 ≤ p.vreplicas + _
        omega
      · exact ih _ _ (by
          have : 0 ≤ min (st.Free (ordinalFromPodName p.podName)) diff :=
            le_min (le_of_lt hguard.2) hguard.1
          have := min_le_right (st.Free (ordinalFromPodName p.podName)) diff
          omega) ht q hq
    · rw [if_neg hguard]
      intro q hq
      simp only [List.mem_cons] at hq
      rcases hq with hq | hq
      · rw [hq]; exact hp
      · exact ih _ _ hd ht q hq

theorem addReplicasExisting_free_mono (ps : List Placement) (st : State) (diff : Int)
    (hd : 0 ≤ diff) :
    ∀ o, 0 ≤ o → (addReplicasExisting st diff ps).2.2.Free o ≤ st.Free o := by
  induction ps generalizing st diff with
  | nil => intro o _; exact le_refl _
  | cons p t ih =>
    intro o ho
    unfold addReplicasExisting
    by_cases hguard : 0 ≤ diff ∧ 0 < st.Free (ordinalFromPodName p.podName)
    · rw [if_pos hguard]
      have hmin0 : 0 ≤ min (st.Free (ordinalFromPodName p.podName)) diff :=
        le_min (le_of_lt hguard.2) hguard.1
      have hminle := min_le_right (st.Free (ordinalFromPodName p.podName)) diff
      have h1 := ih (st.SetFree (ordinalFromPodName p.podName)
          (st.Free (ordinalFromPodName p.podName)
            - min (st.Free (ordinalFromPodName p.podName)) diff))
        (diff - min (st.Free (ordinalFromPodName p.podName)) diff) (by omega) o ho
      have h2 := Free_SetFree_le st (ordinalFromPodName p.podName)
        (st.Free (ordinalFromPodName p.podName)
          - min (st.Free (ordinalFromPodName p.podName)) diff) o
        (ordinalFromPodName_nonneg p.podName) ho (by omega)
      exact le_trans h1 h2
    · rw [if_neg hguard]
      exact ih st diff hd o ho

theorem addReplicasExisting_full (ps : List Placement) (st : State) (diff : Int)
    (hd : 0 ≤ diff) (hleft : 0 < (addReplicasExisting st diff ps).2.1) :
    ∀ p ∈ ps, (addReplicasExisting st diff ps).2.2.Free (ordinalFromPodName p.podName) ≤ 0 := by
  induction ps generalizing st diff with
  | nil => intro p hp; simp at hp
  | cons p t ih =>
    intro q hq
    unfold addReplicasExisting at hleft ⊢
    by_cases hguard : 0 ≤ diff ∧ 0 < st.Free (ordinalFromPodName p.podName)
    · rw [if_pos hguard] at hleft ⊢
      simp only [] at hleft ⊢
      have hmin0 : 0 ≤ min (st.Free (ordinalFromPodName p.podName)) diff :=
        le_min (le_of_lt hguard.2) hguard.1
      have hminle := min_le_right (st.Free (ordinalFromPodName p.podName)) diff
      rcases min_choice (st.Free (ordinalFromPodName p.podName)) diff with hch | hch
      · -- the pod is filled up: its free capacity becomes 0
        simp only [List.mem_cons] at hq
        rcases hq with hq | hq
        · rw [hq]
          have hmono := addReplicasExisting_free_mono t
            (st.SetFree (ordinalFromPodName p.podName)
              (st.Free (ordinalFromPodName p.podName)
                - min (st.Free (ordinalFromPodName p.podName)) diff))
            (diff - min (st.Free (ordinalFromPodName p.podName)) diff) (by omega)
            (ordinalFromPodName p.podName) (ordinalFromPodName_nonneg p.podName)
          have hself := Free_SetFree_self st (ordinalFromPodName p.podName)
            (st.Free (ordinalFromPodName p.podName)
              - min (st.Free (ordinalFromPodName p.podName)) diff)
            (ordinalFromPodName_nonneg p.podName)
          omega
        · exact ih _ _ (by omega) hleft q hq
      · -- the whole remaining diff was allocated here: nothing is left over
        exfalso
        obtain ⟨-, h2, h3⟩ := addReplicasExisting_spec t
          (st.SetFree (ordinalFromPodName p.podName)
            (st.Free (ordinalFromPodName p.podName)
              - min (st.Free (ordinalFromPodName p.podName)) diff))
          (diff - min (st.Free (ordinalFromPodName p.podName)) diff) (by omega)
        omega
    · rw [if_neg hguard] at hleft ⊢
      simp only [] at hleft ⊢
      have hf : st.Free (ordinalFromPodName p.podName) ≤ 0 := by
        rcases not_and_or.mp hguard with h | h
        · omega
        · omega
      simp only [List.mem_cons] at hq
      rcases hq with hq | hq
      · rw [hq]
        have hmono := addReplicasExisting_free_mono t st diff hd
          (ordinalFromPodName p.podName) (ordinalFromPodName_nonneg p.podName)
        omega
      · exact ih st diff hd hleft q hq

theorem addReplicasNew_out (sname : String) (ords : List Int) (st : State) (diff : Int)
    (hpos : 0 < diff) (hords : ∀ o ∈ ords, 0 ≤ o) :
    ∃ ords' : List Int, ords'.Sublist ords
      ∧ (addReplicasNew sname ords st diff).1.map (·.podName)
          = ords'.map (podNameFromOrdinal sname)
      ∧ (∀ o ∈ ords', 0 < st.Free o)
      ∧ (∀ q ∈ (addReplicasNew sname ords st diff).1, 0 < q.vreplicas) := by
  induction ords generalizing st diff with
  | nil => exact ⟨[], List.Sublist.refl _, rfl, by simp, by simp [addReplicasNew]⟩
  | cons ordinal rest ih =>
    have ho : 0 ≤ ordinal := hords ordinal (List.mem_cons_self _ _)
    have hrest : ∀ o ∈ rest, 0 ≤ o := fun o hor => hords o (List.mem_cons_of_mem _ hor)
    unfold addReplicasNew
    simp only []
    by_cases hf : 0 < st.Free ordinal
    · rw [if_pos hf]
      simp only []
      have hmin0 : 0 < min (st.Free ordinal) diff := lt_min hf hpos
      have hminle := min_le_right (st.Free ordinal) diff
      by_cases hz : diff - min (st.Free ordinal) diff = 0
      · rw [if_pos hz]
        refine ⟨[ordinal], List.cons_sublist_cons.mpr (List.nil_sublist rest)
            |>.trans (List.Sublist.refl _), rfl, ?_, ?_⟩
        · intro o hoo
          simp only [List.mem_singleton] at hoo
          rw [hoo]
          exact hf
        · intro q hq
          simp only [List.mem_singleton] at hq
          rw [hq]
          exact hmin0
      · rw [if_neg hz]
        obtain ⟨ords', hsub, hnames, hfree, hposq⟩ := ih
          (st.SetFree ordinal (st.Free ordinal - min (st.Free ordinal) diff))
          (diff - min (st.Free ordinal) diff) (by omega) hrest
        refine ⟨ordinal :: ords', List.cons_sublist_cons.mpr hsub, ?_, ?_, ?_⟩
        · simp only [List.singleton_append, List.map_cons, List.map_append, List.map_nil,
            List.nil_append]
          rw [hnames]
        · intro o hoo
          simp only [List.mem_cons] at hoo
          rcases hoo with hoo | hoo
          · rw [hoo]; exact hf
          · have h1 := hfree o hoo
            have h2 := Free_SetFree_le st ordinal
              (st.Free ordinal - min (st.Free ordinal) diff) o ho
              (hrest o (hsub.subset hoo)) (by omega)
            omega
        · intro q hq
          simp only [List.mem_append, List.mem_singleton] at hq
          rcases hq with hq | hq
          · rw [hq]; exact hmin0
          · exact hposq q hq
    · rw [if_neg hf]
      simp only []
      rw [if_neg (by omega : ¬diff = 0)]
      obtain ⟨ords', hsub, hnames, hfree, hposq⟩ := ih st diff hpos hrest
      refine ⟨ords', hsub.trans (List.sublist_cons_self _ _), ?_, hfree, ?_⟩
      · simp only [List.nil_append]
        exact hnames
      · intro q hq
        simp only [List.nil_append] at hq
        exact hposq q hq

theorem rangeInts_nodup (n : Int) : (rangeInts n).Nodup := by
  unfold rangeInts
  exact (List.nodup_range n.toNat).map (fun a b h => by omega)

theorem mem_rangeInts {n o : Int} (h : o ∈ rangeInts n) : 0 ≤ o ∧ o < (n.toNat : Int) := by
  unfold rangeInts at h
  rw [List.mem_map] at h
  obtain ⟨i, hi, rfl⟩ := h
  rw [List.mem_range] at hi
  omega

/-- MAXFILLUP scale-up preserves the placement-list invariants. -/
theorem addReplicas_preserves (replicas : Int) (sname : String) (st : State) (diff : Int)
    (ps : List Placement)
    (hrep : replicas ≤ maxInt32 + 1) (hd : 0 < diff)
    (hnodup : NamesNodup ps) (hnn : NonNegVR ps) (hcanon : Canonical sname ps) :
    NamesNodup (addReplicas replicas sname st diff ps).1
    ∧ NonNegVR (addReplicas replicas sname st diff ps).1 := by
  unfold addReplicas
  by_cases hc : 0 < (addReplicasExisting st diff ps).2.1
  · rw [if_pos hc]
    simp only []
    obtain ⟨ords', hsub, hnames, hfree, hposq⟩ := addReplicasNew_out sname
      (rangeInts replicas) (addReplicasExisting st diff ps).2.2
      (addReplicasExisting st diff ps).2.1 hc
      (fun o ho => (mem_rangeInts ho).1)
    have hbounds : ∀ o ∈ ords', 0 ≤ o ∧ o ≤ maxInt32 := by
      intro o ho
      have := mem_rangeInts (hsub.subset ho)
      omega
    constructor
    · show ((addReplicasExisting st diff ps).1
        ++ (addReplicasNew sname (rangeInts replicas) _ _).1).map (·.podName) |>.Nodup
      rw [List.map_append, addReplicasExisting_names, hnames]
      rw [List.nodup_append]
      refine ⟨hnodup, ?_, ?_⟩
      · refine (hsub.nodup (rangeInts_nodup replicas)).map_on ?_
        intro o1 h1 o2 h2 heq
        exact podNameFromOrdinal_inj sname o1 o2 (hbounds o1 h1).1 (hbounds o1 h1).2
          (hbounds o2 h2).1 (hbounds o2 h2).2 heq
      · intro a ha hb
        obtain ⟨p, hp, hpa⟩ := List.mem_map.mp ha
        obtain ⟨o, hoo, hob⟩ := List.mem_map.mp hb
        have hful := addReplicasExisting_full ps st diff (by omega) hc p hp
        have hfo := hfree o hoo
        have hordeq : ordinalFromPodName p.podName = o := by
          have : p.podName = podNameFromOrdinal sname o := by rw [hpa, hob]
          rw [this, ordinalFromPodName_roundtrip sname o (hbounds o hoo).1 (hbounds o hoo).2]
        rw [hordeq] at hful
        omega
    · intro q hq
      rcases List.mem_append.mp hq with hq | hq
      · exact addReplicasExisting_nonneg ps st diff (by omega) hnn q hq
      · exact le_of_lt (hposq q hq)
  · rw [if_neg hc]
    refine ⟨?_, addReplicasExisting_nonneg ps st diff (by omega) hnn⟩
    show ((addReplicasExisting st diff ps).1.map (·.podName)).Nodup
    rw [addReplicasExisting_names]
    exact hnodup

/-! ## The plugin-policy path preserves the invariants -/

theorem addSelectionToPlacements_names (sname : String) (podID newreps : Int)
    (placements : List Placement)
    (hseen : placements.any (fun p => ordinalFromPodName p.podName = podID) = true) :
    (addSelectionToPlacements sname podID newreps placements).map (·.podName)
      = placements.map (·.podName) := by
  unfold addSelectionToPlacements
  rw [if_pos hseen]
  rw [List.map_map]
  refine List.map_congr_left ?_
  intro p _
  by_cases hp : ordinalFromPodName p.podName = podID
  · simp [hp]
  · simp [hp]

theorem addSelectionToPlacements_preserves (sname : String) (podID newreps : Int)
    (placements : List Placement)
    (h0 : 0 ≤ podID) (h1 : podID ≤ maxInt32) (hreps : 0 ≤ newreps)
    (hnodup : NamesNodup placements) (hnn : NonNegVR placements)
    (hcanon : Canonical sname placements) :
    NamesNodup (addSelectionToPlacements sname podID newreps placements)
    ∧ NonNegVR (addSelectionToPlacements sname podID newreps placements)
    ∧ Canonical sname (addSelectionToPlacements sname podID newreps placements) := by
  by_cases hseen : placements.any (fun p => ordinalFromPodName p.podName = podID) = true
  · refine ⟨?_, ?_, ?_⟩
    · show ((addSelectionToPlacements sname podID newreps placements).map (·.podName)).Nodup
      rw [addSelectionToPlacements_names sname podID newreps placements hseen]
      exact hnodup
    · intro q hq
      unfold addSelectionToPlacements at hq
      rw [if_pos hseen] at hq
      obtain ⟨p, hp, hpq⟩ := List.mem_map.mp hq
      by_cases hord : ordinalFromPodName p.podName = podID
      · rw [if_pos hord] at hpq
        have := hnn p hp
        rw [← hpq]
        show 0 ≤ p.vreplicas + newreps
        omega
      · rw [if_neg hord] at hpq
        rw [← hpq]
        exact hnn p hp
    · intro q hq
      unfold addSelectionToPlacements at hq
      rw [if_pos hseen] at hq
      obtain ⟨p, hp, hpq⟩ := List.mem_map.mp hq
      obtain ⟨ord, ho1, ho2, ho3⟩ := hcanon p hp
      refine ⟨ord, ho1, ho2, ?_⟩
      rw [← hpq]
      by_cases hord : ordinalFromPodName p.podName = podID
      · rw [if_pos hord]
        exact ho3
      · rw [if_neg hord]
        exact ho3
  · have hmapid : placements.map
        (fun p => if ordinalFromPodName p.podName = podID
          then (⟨p.podName, p.vreplicas + newreps⟩ : Placement) else p) = placements := by
      refine (List.map_congr_left ?_).trans (List.map_id placements)
      intro p hp
      have hord : ¬ ordinalFromPodName p.podName = podID := by
        intro hord
        exact hseen (List.any_eq_true.mpr ⟨p, hp, decide_eq_true hord⟩)
      rw [if_neg hord]
      rfl
    have hout : addSelectionToPlacements sname podID newreps placements
        = placements ++ [⟨podNameFromOrdinal sname podID, newreps⟩] := by
      unfold addSelectionToPlacements
      rw [if_neg hseen, hmapid]
    rw [hout]
    refine ⟨?_, ?_, ?_⟩
    · show ((placements ++ _).map (·.podName)).Nodup
      rw [List.map_append]
      rw [List.nodup_append]
      refine ⟨hnodup, by simp, ?_⟩
      intro a ha hb
      simp only [List.map_cons, List.map_nil, List.mem_singleton] at hb
      obtain ⟨p, hp, hpa⟩ := List.mem_map.mp ha
      have hpn : p.podName = podNameFromOrdinal sname podID := by rw [hpa, hb]
      have hord : ordinalFromPodName p.podName = podID := by
        rw [hpn, ordinalFromPodName_roundtrip sname podID h0 h1]
      exact hseen (List.any_eq_true.mpr ⟨p, hp, decide_eq_true hord⟩)
    · intro q hq
      rcases List.mem_append.mp hq with hq | hq
      · exact hnn q hq
      · simp only [List.mem_singleton] at hq
        rw [hq]
        exact hreps
    · intro q hq
      rcases List.mem_append.mp hq with hq | hq
      · exact hcanon q hq
      · simp only [List.mem_singleton] at hq
        exact ⟨podID, h0, h1, by rw [hq]⟩

theorem addReplicasWithPolicy_preserves (sname : String) (decisions : List (Option Int))
    (diff : Int) (placements : List Placement)
    (hdec : ∀ d ∈ decisions, ∀ id : Int, d = some id → 0 ≤ id ∧ id ≤ maxInt32)
    (hnodup : NamesNodup placements) (hnn : NonNegVR placements)
    (hcanon : Canonical sname placements) :
    NamesNodup (addReplicasWithPolicy sname decisions diff placements).1
    ∧ NonNegVR (addReplicasWithPolicy sname decisions diff placements).1 := by
  induction decisions generalizing diff placements with
  | nil =>
    unfold addReplicasWithPolicy
    by_cases hz : diff ≤ 0
    · rw [if_pos hz]; exact ⟨hnodup, hnn⟩
    · rw [if_neg hz]; exact ⟨hnodup, hnn⟩
  | cons d rest ih =>
    unfold addReplicasWithPolicy
    by_cases hz : diff ≤ 0
    · rw [if_pos hz]; exact ⟨hnodup, hnn⟩
    · rw [if_neg hz]
      cases d with
      | none => exact ⟨hnodup, hnn⟩
      | some id =>
        have hid := hdec (some id) (List.mem_cons_self _ _) id rfl
        obtain ⟨g1, g2, g3⟩ := addSelectionToPlacements_preserves sname id 1 placements
          hid.1 hid.2 (by omega) hnodup hnn hcanon
        exact ih (diff - 1) (addSelectionToPlacements sname id 1 placements)
          (fun dd hdd => hdec dd (List.mem_cons_of_mem _ hdd)) g1 g2 g3

/-! ## The even-spread scale-up path preserves the invariants

### The domain key and the grouping fold -/

/-- The domain of a pod: its node name when `byNode`, else its zone. -/
def dkey (byNode : Bool) (podToNode ntz : List (String × String)) (nm : String) : String :=
  if byNode then (getPodInfo podToNode ntz nm).2.1 else (getPodInfo podToNode ntz nm).1

theorem alookup_aset_ne {κ ν : Type} [DecidableEq κ] (k k' : κ) (v : ν) (l : List (κ × ν))
    (h : k' ≠ k) : alookup k' (aset k v l) = alookup k' l := by
  induction l with
  | nil =>
    show alookup k' [(k, v)] = none
    unfold alookup
    rw [if_neg h]
    rfl
  | cons hd t ih =>
    rcases hd with ⟨k₀, v₀⟩
    unfold aset
    by_cases hk : k = k₀
    · rw [if_pos hk]
      show alookup k' ((k, v) :: t) = alookup k' ((k₀, v₀) :: t)
      unfold alookup
      rw [if_neg h, if_neg (hk ▸ h)]
    · rw [if_neg hk]
      show alookup k' ((k₀, v₀) :: aset k v t) = alookup k' ((k₀, v₀) :: t)
      unfold alookup
      by_cases hk' : k' = k₀
      · rw [if_pos hk', if_pos hk']
      · rw [if_neg hk', if_neg hk']
        exact ih

theorem alookup_isSome_iff_mem {κ ν : Type} [DecidableEq κ] (k : κ) (l : List (κ × ν)) :
    (alookup k l).isSome = true ↔ k ∈ l.map (·.1) := by
  induction l with
  | nil => simp [alookup]
  | cons hd t ih =>
    rcases hd with ⟨k₀, v₀⟩
    show ((if k = k₀ then some v₀ else alookup k t).isSome = true) ↔ _
    by_cases hk : k = k₀
    · simp [hk]
    · rw [if_neg hk]
      simp only [List.map_cons, List.mem_cons]
      rw [ih]
      constructor
      · exact Or.inr
      · rintro (hh | hh)
        · exact absurd hh hk
        · exact hh

theorem aset_keys {κ ν : Type} [DecidableEq κ] (k : κ) (v : ν) (l : List (κ × ν)) :
    (aset k v l).map (·.1)
      = if (alookup k l).isSome then l.map (·.1) else l.map (·.1) ++ [k] := by
  induction l with
  | nil => simp [aset, alookup]
  | cons hd t ih =>
    rcases hd with ⟨k₀, v₀⟩
    by_cases hk : k = k₀
    · show ((if k = k₀ then (k, v) :: t else (k₀, v₀) :: aset k v t).map (·.1)) = _
      rw [if_pos hk]
      show k :: t.map (·.1)
        = if ((if k = k₀ then some v₀ else alookup k t)).isSome then _ else _
      rw [if_pos hk]
      simp [hk]
    · show ((if k = k₀ then (k, v) :: t else (k₀, v₀) :: aset k v t).map (·.1)) = _
      rw [if_neg hk]
      show k₀ :: (aset k v t).map (·.1)
        = if ((if k = k₀ then some v₀ else alookup k t)).isSome then _ else _
      rw [if_neg hk]
      rw [ih]
      by_cases hs : (alookup k t).isSome
      · rw [if_pos hs, if_pos hs]
        rfl
      · rw [if_neg hs, if_neg hs]
        rfl

theorem alookup_appendGroup_self (k : String) (v : Int) (g : List (String × List Int)) :
    alookup k (appendGroup k v g) = some ((alookup k g).getD [] ++ [v]) := by
  unfold appendGroup
  cases hl : alookup k g with
  | none =>
    show alookup k (aset k [v] g) = _
    rw [alookup_aset_self]
    rfl
  | some l =>
    show alookup k (aset k (l ++ [v]) g) = _
    rw [alookup_aset_self]
    rfl

theorem alookup_appendGroup_ne (k d : String) (v : Int) (g : List (String × List Int))
    (h : k ≠ d) : alookup d (appendGroup k v g) = alookup d g := by
  unfold appendGroup
  cases hl : alookup k g with
  | none =>
    show alookup d (aset k [v] g) = _
    exact alookup_aset_ne k d [v] g (Ne.symm h)
  | some l =>
    show alookup d (aset k (l ++ [v]) g) = _
    exact alookup_aset_ne k d (l ++ [v]) g (Ne.symm h)

theorem appendGroup_keys (k : String) (v : Int) (g : List (String × List Int)) :
    (appendGroup k v g).map (·.1)
      = if (alookup k g).isSome then g.map (·.1) else g.map (·.1) ++ [k] := by
  unfold appendGroup
  cases hl : alookup k g with
  | none =>
    show (aset k [v] g).map (·.1) = _
    rw [aset_keys, hl]
  | some l =>
    show (aset k (l ++ [v]) g).map (·.1) = _
    rw [aset_keys, hl]

theorem groupFold_getD {α : Type} (keyf : α → String) (vf : α → Int) :
    ∀ (ps : List α) (g : List (String × List Int)) (d : String),
    (alookup d (ps.foldl (fun g p => appendGroup (keyf p) (vf p) g) g)).getD []
      = (alookup d g).getD [] ++ (ps.filter (fun p => keyf p = d)).map vf
  | [], g, d => by
    rw [List.foldl_nil, List.filter_nil, List.map_nil, List.append_nil]
  | p :: ps, g, d => by
    rw [List.foldl_cons]
    rw [groupFold_getD keyf vf ps (appendGroup (keyf p) (vf p) g) d]
    by_cases hk : keyf p = d
    · rw [List.filter_cons, if_pos (decide_eq_true hk)]
      rw [hk, alookup_appendGroup_self, Option.getD_some]
      rw [List.map_cons, List.append_assoc]
      rfl
    · rw [List.filter_cons, if_neg (fun hc => hk (of_decide_eq_true hc))]
      rw [alookup_appendGroup_ne (keyf p) d (vf p) g hk]

theorem groupFold_keys_nodup {α : Type} (keyf : α → String) (vf : α → Int) :
    ∀ (ps : List α) (g : List (String × List Int)),
    (g.map (·.1)).Nodup →
    ((ps.foldl (fun g p => appendGroup (keyf p) (vf p) g) g).map (·.1)).Nodup
  | [], _, h => h
  | p :: ps, g, h => by
    rw [List.foldl_cons]
    refine groupFold_keys_nodup keyf vf ps _ ?_
    rw [appendGroup_keys]
    by_cases hs : (alookup (keyf p) g).isSome
    · rw [if_pos hs]
      exact h
    · rw [if_neg hs]
      rw [List.nodup_append]
      refine ⟨h, List.nodup_singleton _, ?_⟩
      intro a ha hb
      rw [List.mem_singleton] at hb
      subst hb
      exact hs ((alookup_isSome_iff_mem (keyf p) g).mpr ha)

theorem groupFold_cover {α : Type} (keyf : α → String) (vf : α → Int)
    (ps : List α) (p : α) (hp : p ∈ ps) :
    keyf p ∈ ((ps.foldl (fun g q => appendGroup (keyf q) (vf q) g) []).map (·.1)) := by
  rw [← alookup_isSome_iff_mem]
  have hgd := groupFold_getD keyf vf ps [] (keyf p)
  cases hl : alookup (keyf p) (ps.foldl (fun g q => appendGroup (keyf q) (vf q) g) []) with
  | some l => rfl
  | none =>
    rw [hl] at hgd
    have h0 : (alookup (keyf p) ([] : List (String × List Int))).getD [] = [] := rfl
    rw [h0, List.nil_append] at hgd
    have hmem : vf p ∈ (ps.filter (fun q => keyf q = keyf p)).map vf :=
      List.mem_map.mpr ⟨p, List.mem_filter.mpr ⟨hp, by simp⟩, rfl⟩
    rw [← hgd] at hmem
    exact absurd hmem (List.not_mem_nil _)

/-- Flattening the per-domain buckets of a list recovers a permutation
of the list, provided the domain list is duplicate-free and covers every
element. -/
theorem buckets_flatten_perm {α β : Type} (keyf : α → String) (vf : α → β) :
    ∀ (ds : List String) (l : List α),
    ds.Nodup → (∀ x ∈ l, keyf x ∈ ds) →
    List.Perm ((ds.map (fun d => (l.filter (fun x => keyf x = d)).map vf)).flatten)
      (l.map vf)
  | [], l, _, hcov => by
    have hl : l = [] := List.eq_nil_iff_forall_not_mem.mpr fun x hx =>
      by have := hcov x hx; simp at this
    subst hl
    exact List.Perm.refl _
  | d :: ds, l, hnd, hcov => by
    rw [List.map_cons, List.flatten_cons]
    rw [List.nodup_cons] at hnd
    have hstep : ∀ d' ∈ ds,
        (l.filter (fun x => keyf x = d')).map vf
          = ((l.filter (fun x => !(decide (keyf x = d)))).filter
              (fun x => keyf x = d')).map vf := by
      intro d' hd'
      rw [List.filter_filter]
      refine congrArg (List.map vf) (List.filter_congr ?_).symm
      intro x hx
      by_cases hxd : keyf x = d'
      · have hxd2 : ¬ keyf x = d := by
          intro hc
          have hdd : d = d' := hc.symm.trans hxd
          exact hnd.1 (by rw [hdd]; exact hd')
        simp only [hxd, decide_eq_true_eq]
        have hne : ¬ d' = d := fun hc => hnd.1 (hc ▸ hd')
        simp [hne]
      · simp [hxd]
    have hmapeq : ds.map (fun d' => (l.filter (fun x => keyf x = d')).map vf)
        = ds.map (fun d' => ((l.filter (fun x => !(decide (keyf x = d)))).filter
            (fun x => keyf x = d')).map vf) :=
      List.map_congr_left hstep
    rw [hmapeq]
    have hcov' : ∀ x ∈ l.filter (fun x => !(decide (keyf x = d))), keyf x ∈ ds := by
      intro x hx
      rw [List.mem_filter] at hx
      have h1 := hcov x hx.1
      rw [List.mem_cons] at h1
      rcases h1 with h1 | h1
      · exfalso
        have h2 := hx.2
        rw [h1] at h2
        simp at h2
      · exact h1
    have ih := buckets_flatten_perm keyf vf ds
      (l.filter (fun x => !(decide (keyf x = d)))) hnd.2 hcov'
    refine (List.Perm.append_left ((l.filter (fun x => keyf x = d)).map vf) ih).trans ?_
    rw [← List.map_append]
    exact (List.filter_append_perm _ l).map vf

/-! ### `getPlacementFromPodOrdinal` on canonical duplicate-free lists -/

theorem getPlacementFromPodOrdinal_nonneg (sname : String) (ps : List Placement) (o : Int)
    (hnn : NonNegVR ps) : 0 ≤ (getPlacementFromPodOrdinal sname ps o).vreplicas := by
  unfold getPlacementFromPodOrdinal
  cases hf : ps.find? (fun p => p.podName = podNameFromOrdinal sname o) with
  | none => exact le_refl 0
  | some q => exact hnn q (List.mem_of_find?_eq_some hf)

theorem getPlacementFromPodOrdinal_of_mem (sname : String) (ps : List Placement)
    (hnodup : NamesNodup ps) (hcanon : Canonical sname ps) (p : Placement) (hp : p ∈ ps) :
    getPlacementFromPodOrdinal sname ps (ordinalFromPodName p.podName) = p := by
  obtain ⟨o₀, h0, h1, h3⟩ := hcanon p hp
  have hord : ordinalFromPodName p.podName = o₀ := by
    rw [h3, ordinalFromPodName_roundtrip sname o₀ h0 h1]
  unfold getPlacementFromPodOrdinal
  cases hf : ps.find?
      (fun q => q.podName = podNameFromOrdinal sname (ordinalFromPodName p.podName)) with
  | none =>
    exfalso
    rw [List.find?_eq_none] at hf
    exact hf p hp (decide_eq_true (by rw [hord]; exact h3))
  | some q =>
    have hqn := List.find?_some hf
    have hqm := List.mem_of_find?_eq_some hf
    have hqe : q.podName = p.podName := by
      have h4 := of_decide_eq_true hqn
      rw [hord, ← h3] at h4
      exact h4
    exact List.inj_on_of_nodup_map hnodup hqm hp hqe

/-! ### Domain totals as sums over key-filtered sublists -/

theorem getTotalVReplicas_eq_sum (l : List Placement) :
    getTotalVReplicas l = (l.map (·.vreplicas)).sum := by
  induction l with
  | nil => rfl
  | cons p t ih => rw [getTotalVReplicas_cons, List.map_cons, List.sum_cons, ih]

theorem foldl_total_filter (c : Placement → Prop) [DecidablePred c] :
    ∀ (l : List Placement) (a : Int),
    l.foldl (fun t p => if c p then t + p.vreplicas else t) a
      = a + getTotalVReplicas (l.filter (fun p => decide (c p)))
  | [], a => by rw [List.foldl_nil, List.filter_nil, getTotalVReplicas_nil, add_zero]
  | p :: l, a => by
    rw [List.foldl_cons]
    by_cases hc : c p
    · rw [if_pos hc, List.filter_cons, if_pos (decide_eq_true hc),
        foldl_total_filter c l (a + p.vreplicas), getTotalVReplicas_cons]
      ring
    · rw [if_neg hc, List.filter_cons, if_neg (fun hx => hc (of_decide_eq_true hx)),
        foldl_total_filter c l a]

theorem domainTotal_filter (byNode : Bool) (podToNode ntz : List (String × String))
    (l : List Placement) (d : String) :
    domainTotal byNode podToNode ntz l d
      = getTotalVReplicas
          (l.filter (fun p => dkey byNode podToNode ntz p.podName = d)) := by
  cases byNode with
  | false =>
    show getTotalVReplicasInZone podToNode ntz l d = _
    unfold getTotalVReplicasInZone
    rw [foldl_total_filter (fun p => (getPodInfo podToNode ntz p.podName).1 = d) l 0,
      zero_add]
    refine congrArg getTotalVReplicas (List.filter_congr ?_)
    intro x _
    rfl
  | true =>
    show getTotalVReplicasInNode podToNode ntz l d = _
    unfold getTotalVReplicasInNode
    rw [foldl_total_filter (fun p => (getPodInfo podToNode ntz p.podName).2.1 = d) l 0,
      zero_add]
    refine congrArg getTotalVReplicas (List.filter_congr ?_)
    intro x _
    rfl

theorem domainTotal_append (byNode : Bool) (podToNode ntz : List (String × String))
    (l₁ l₂ : List Placement) (d : String) :
    domainTotal byNode podToNode ntz (l₁ ++ l₂) d
      = domainTotal byNode podToNode ntz l₁ d + domainTotal byNode podToNode ntz l₂ d := by
  rw [domainTotal_filter, domainTotal_filter, domainTotal_filter, List.filter_append,
    getTotalVReplicas_append]

theorem domainTotal_of_all (byNode : Bool) (podToNode ntz : List (String × String))
    (l : List Placement) (d : String)
    (h : ∀ p ∈ l, dkey byNode podToNode ntz p.podName = d) :
    domainTotal byNode podToNode ntz l d = getTotalVReplicas l := by
  rw [domainTotal_filter]
  rw [List.filter_eq_self.mpr fun p hp => decide_eq_true (h p hp)]

theorem domainTotal_of_none (byNode : Bool) (podToNode ntz : List (String × String))
    (l : List Placement) (d : String)
    (h : ∀ p ∈ l, ¬ dkey byNode podToNode ntz p.podName = d) :
    domainTotal byNode podToNode ntz l d = 0 := by
  rw [domainTotal_filter]
  rw [List.filter_eq_nil_iff.mpr fun p hp => by simp [h p hp]]
  exact getTotalVReplicas_nil

/-! ### The inner loop of `addToExistingReplicas`, one domain at a time -/

theorem addExistDomain_names (sname : String) (orig : List Placement) (spread : Int) :
    ∀ (bucket : List Int) (st : State) (diff total : Int),
    (addExistDomain sname orig spread bucket st diff total).1.map (·.podName)
      = bucket.map (fun o => (getPlacementFromPodOrdinal sname orig o).podName)
  | [], _, _, _ => rfl
  | o :: rest, st, diff, total => by
    unfold addExistDomain
    simp only []
    by_cases hg : 0 ≤ diff ∧ 0 < st.Free o ∧ total < spread
    · rw [if_pos hg]
      simp only [List.map_cons]
      rw [addExistDomain_names sname orig spread rest]
    · rw [if_neg hg]
      simp only [List.map_cons]
      rw [addExistDomain_names sname orig spread rest]

theorem addExistDomain_mem (sname : String) (orig : List Placement) (spread : Int) :
    ∀ (bucket : List Int) (st : State) (diff total : Int),
    ∀ p ∈ (addExistDomain sname orig spread bucket st diff total).1,
    ∃ o ∈ bucket, ∃ a : Int, 0 ≤ a
      ∧ p.podName = (getPlacementFromPodOrdinal sname orig o).podName
      ∧ p.vreplicas = (getPlacementFromPodOrdinal sname orig o).vreplicas + a
  | [], _, _, _ => by
    intro p hp
    exact absurd hp (List.not_mem_nil p)
  | o :: rest, st, diff, total => by
    intro p hp
    unfold addExistDomain at hp
    simp only [] at hp
    by_cases hg : 0 ≤ diff ∧ 0 < st.Free o ∧ total < spread
    · rw [if_pos hg] at hp
      simp only [List.mem_cons] at hp
      rcases hp with hp | hp
      · refine ⟨o, List.mem_cons_self o rest,
          min diff (min (st.Free o) (spread - total)), by omega, ?_, ?_⟩
        · rw [hp]
        · rw [hp]
      · obtain ⟨o', ho', a, ha, h1, h2⟩ := addExistDomain_mem sname orig spread rest
          (st.SetFree o (st.Free o - min diff (min (st.Free o) (spread - total))))
          (diff - min diff (min (st.Free o) (spread - total)))
          (total + min diff (min (st.Free o) (spread - total))) p hp
        exact ⟨o', List.mem_cons_of_mem o ho', a, ha, h1, h2⟩
    · rw [if_neg hg] at hp
      simp only [List.mem_cons] at hp
      rcases hp with hp | hp
      · refine ⟨o, List.mem_cons_self o rest, 0, le_refl 0, ?_, ?_⟩
        · rw [hp]
        · rw [hp]
          omega
      · obtain ⟨o', ho', a, ha, h1, h2⟩ :=
          addExistDomain_mem sname orig spread rest st diff total p hp
        exact ⟨o', List.mem_cons_of_mem o ho', a, ha, h1, h2⟩

theorem addExistDomain_diff (sname : String) (orig : List Placement) (spread : Int) :
    ∀ (bucket : List Int) (st : State) (diff total : Int), 0 ≤ diff →
    0 ≤ (addExistDomain sname orig spread bucket st diff total).2.2
      ∧ (addExistDomain sname orig spread bucket st diff total).2.2 ≤ diff
  | [], _, _, _, hdiff => ⟨hdiff, le_refl _⟩
  | o :: rest, st, diff, total, hdiff => by
    unfold addExistDomain
    simp only []
    by_cases hg : 0 ≤ diff ∧ 0 < st.Free o ∧ total < spread
    · rw [if_pos hg]
      simp only []
      have h := addExistDomain_diff sname orig spread rest
        (st.SetFree o (st.Free o - min diff (min (st.Free o) (spread - total))))
        (diff - min diff (min (st.Free o) (spread - total)))
        (total + min diff (min (st.Free o) (spread - total))) (by omega)
      omega
    · rw [if_neg hg]
      simp only []
      exact addExistDomain_diff sname orig spread rest st diff total hdiff

theorem addExistDomain_free (sname : String) (orig : List Placement) (spread : Int) :
    ∀ (bucket : List Int) (st : State) (diff total : Int),
    (∀ o ∈ bucket, 0 ≤ o) →
    ∀ o' : Int, 0 ≤ o' →
    (addExistDomain sname orig spread bucket st diff total).2.1.Free o' ≤ st.Free o'
  | [], _, _, _, _, _, _ => le_refl _
  | o :: rest, st, diff, total, hb, o', ho' => by
    have ho0 : 0 ≤ o := hb o (List.mem_cons_self o rest)
    have hbrest : ∀ x ∈ rest, 0 ≤ x := fun x hx => hb x (List.mem_cons_of_mem o hx)
    unfold addExistDomain
    simp only []
    by_cases hg : 0 ≤ diff ∧ 0 < st.Free o ∧ total < spread
    · rw [if_pos hg]
      simp only []
      have h1 := addExistDomain_free sname orig spread rest
        (st.SetFree o (st.Free o - min diff (min (st.Free o) (spread - total))))
        (diff - min diff (min (st.Free o) (spread - total)))
        (total + min diff (min (st.Free o) (spread - total))) hbrest o' ho'
      have h2 := Free_SetFree_le st o
        (st.Free o - min diff (min (st.Free o) (spread - total))) o' ho0 ho' (by omega)
      omega
    · rw [if_neg hg]
      simp only []
      exact addExistDomain_free sname orig spread rest st diff total hbrest o' ho'

theorem addExistDomain_total (sname : String) (orig : List Placement) (spread : Int) :
    ∀ (bucket : List Int) (st : State) (diff total : Int),
    getTotalVReplicas (addExistDomain sname orig spread bucket st diff total).1
      = (bucket.map (fun o => (getPlacementFromPodOrdinal sname orig o).vreplicas)).sum
        + (diff - (addExistDomain sname orig spread bucket st diff total).2.2)
  | [], st, diff, total => by
    show getTotalVReplicas [] = ([] : List Int).sum + (diff - diff)
    rw [getTotalVReplicas_nil, List.sum_nil]
    omega
  | o :: rest, st, diff, total => by
    unfold addExistDomain
    simp only []
    by_cases hg : 0 ≤ diff ∧ 0 < st.Free o ∧ total < spread
    · rw [if_pos hg]
      simp only [List.map_cons, List.sum_cons]
      rw [getTotalVReplicas_cons]
      have h := addExistDomain_total sname orig spread rest
        (st.SetFree o (st.Free o - min diff (min (st.Free o) (spread - total))))
        (diff - min diff (min (st.Free o) (spread - total)))
        (total + min diff (min (st.Free o) (spread - total)))
      simp only []
      rw [h]
      ring
    · rw [if_neg hg]
      simp only [List.map_cons, List.sum_cons]
      rw [getTotalVReplicas_cons]
      rw [addExistDomain_total sname orig spread rest st diff total]
      ring

theorem addExistDomain_blocked (sname : String) (orig : List Placement) (spread : Int) :
    ∀ (bucket : List Int) (st : State) (diff total : Int),
    (∀ o ∈ bucket, 0 ≤ o) → 0 ≤ diff →
    0 < (addExistDomain sname orig spread bucket st diff total).2.2 →
    ∀ o ∈ bucket,
      (addExistDomain sname orig spread bucket st diff total).2.1.Free o ≤ 0
      ∨ spread ≤ total + (diff - (addExistDomain sname orig spread bucket st diff total).2.2)
  | [], _, _, _, _, _, _, o, ho => absurd ho (List.not_mem_nil o)
  | o :: rest, st, diff, total, hb, hdiff, hpos, o', ho' => by
    have ho0 : 0 ≤ o := hb o (List.mem_cons_self o rest)
    have hbrest : ∀ x ∈ rest, 0 ≤ x := fun x hx => hb x (List.mem_cons_of_mem o hx)
    unfold addExistDomain at hpos ⊢
    simp only [] at hpos ⊢
    rw [List.mem_cons] at ho'
    by_cases hg : 0 ≤ diff ∧ 0 < st.Free o ∧ total < spread
    · rw [if_pos hg] at hpos ⊢
      simp only [] at hpos ⊢
      have hrd := addExistDomain_diff sname orig spread rest
        (st.SetFree o (st.Free o - min diff (min (st.Free o) (spread - total))))
        (diff - min diff (min (st.Free o) (spread - total)))
        (total + min diff (min (st.Free o) (spread - total))) (by omega)
      rcases ho' with ho' | ho'
      · subst ho'
        by_cases haf : min diff (min (st.Free o') (spread - total)) = st.Free o'
        · left
          have h1 := addExistDomain_free sname orig spread rest
            (st.SetFree o' (st.Free o' - min diff (min (st.Free o') (spread - total))))
            (diff - min diff (min (st.Free o') (spread - total)))
            (total + min diff (min (st.Free o') (spread - total))) hbrest o' ho0
          have h2 := Free_SetFree_self st o'
            (st.Free o' - min diff (min (st.Free o') (spread - total))) ho0
          omega
        · right
          omega
      · have ih := addExistDomain_blocked sname orig spread rest
          (st.SetFree o (st.Free o - min diff (min (st.Free o) (spread - total))))
          (diff - min diff (min (st.Free o) (spread - total)))
          (total + min diff (min (st.Free o) (spread - total))) hbrest (by omega) hpos o' ho'
        rcases ih with ih | ih
        · exact Or.inl ih
        · exact Or.inr (by omega)
    · rw [if_neg hg] at hpos ⊢
      simp only [] at hpos ⊢
      have hrd := addExistDomain_diff sname orig spread rest st diff total hdiff
      rcases ho' with ho' | ho'
      · subst ho'
        by_cases hf0 : 0 < st.Free o'
        · right
          have hts : spread ≤ total := by
            rcases not_and_or.mp hg with h | h
            · omega
            · rcases not_and_or.mp h with h | h
              · omega
              · omega
          omega
        · left
          have h1 := addExistDomain_free sname orig spread rest st diff total hbrest o' ho0
          omega
      · exact addExistDomain_blocked sname orig spread rest st diff total hbrest hdiff
          hpos o' ho'

/-! ### The outer loop of `addToExistingReplicas`, over the sorted domains -/

theorem addExistDomains_names (byNode : Bool) (ptn ntz : List (String × String))
    (sname : String) (orig : List Placement) (spread : Int)
    (groups : List (String × List Int)) :
    ∀ (ds : List String) (st : State) (diff : Int),
    (addExistDomains byNode ptn ntz sname orig spread groups ds st diff).1.map (·.podName)
      = (ds.map (fun d => ((alookup d groups).getD []).map
          (fun o => (getPlacementFromPodOrdinal sname orig o).podName))).flatten
  | [], _, _ => rfl
  | d :: rest, st, diff => by
    unfold addExistDomains
    simp only [List.map_cons, List.flatten_cons]
    rw [List.map_append]
    rw [addExistDomain_names sname orig spread]
    rw [addExistDomains_names byNode ptn ntz sname orig spread groups rest]

theorem addExistDomains_mem (byNode : Bool) (ptn ntz : List (String × String))
    (sname : String) (orig : List Placement) (spread : Int)
    (groups : List (String × List Int)) :
    ∀ (ds : List String) (st : State) (diff : Int),
    ∀ p ∈ (addExistDomains byNode ptn ntz sname orig spread groups ds st diff).1,
    ∃ d ∈ ds, ∃ o ∈ (alookup d groups).getD [], ∃ a : Int, 0 ≤ a
      ∧ p.podName = (getPlacementFromPodOrdinal sname orig o).podName
      ∧ p.vreplicas = (getPlacementFromPodOrdinal sname orig o).vreplicas + a
  | [], _, _ => by
    intro p hp
    exact absurd hp (List.not_mem_nil p)
  | d :: rest, st, diff => by
    intro p hp
    unfold addExistDomains at hp
    simp only [] at hp
    rcases List.mem_append.mp hp with hp | hp
    · obtain ⟨o, ho, a, ha, h1, h2⟩ := addExistDomain_mem sname orig spread
        ((alookup d groups).getD []) st diff (domainTotal byNode ptn ntz orig d) p hp
      exact ⟨d, List.mem_cons_self d rest, o, ho, a, ha, h1, h2⟩
    · obtain ⟨d', hd', o, ho, a, ha, h1, h2⟩ := addExistDomains_mem byNode ptn ntz sname
        orig spread groups rest _ _ p hp
      exact ⟨d', List.mem_cons_of_mem d hd', o, ho, a, ha, h1, h2⟩

theorem addExistDomains_diff (byNode : Bool) (ptn ntz : List (String × String))
    (sname : String) (orig : List Placement) (spread : Int)
    (groups : List (String × List Int)) :
    ∀ (ds : List String) (st : State) (diff : Int), 0 ≤ diff →
    0 ≤ (addExistDomains byNode ptn ntz sname orig spread groups ds st diff).2.2
      ∧ (addExistDomains byNode ptn ntz sname orig spread groups ds st diff).2.2 ≤ diff
  | [], _, _, hdiff => ⟨hdiff, le_refl _⟩
  | d :: rest, st, diff, hdiff => by
    unfold addExistDomains
    simp only []
    have h1 := addExistDomain_diff sname orig spread ((alookup d groups).getD []) st diff
      (domainTotal byNode ptn ntz orig d) hdiff
    have h2 := addExistDomains_diff byNode ptn ntz sname orig spread groups rest
      (addExistDomain sname orig spread ((alookup d groups).getD []) st diff
        (domainTotal byNode ptn ntz orig d)).2.1
      (addExistDomain sname orig spread ((alookup d groups).getD []) st diff
        (domainTotal byNode ptn ntz orig d)).2.2 h1.1
    omega

theorem addExistDomains_free (byNode : Bool) (ptn ntz : List (String × String))
    (sname : String) (orig : List Placement) (spread : Int)
    (groups : List (String × List Int)) :
    ∀ (ds : List String) (st : State) (diff : Int),
    (∀ d, ∀ o ∈ (alookup d groups).getD [], 0 ≤ o) →
    ∀ o' : Int, 0 ≤ o' →
    (addExistDomains byNode ptn ntz sname orig spread groups ds st diff).2.1.Free o'
      ≤ st.Free o'
  | [], _, _, _, _, _ => le_refl _
  | d :: rest, st, diff, hbk, o', ho' => by
    unfold addExistDomains
    simp only []
    have h1 := addExistDomain_free sname orig spread ((alookup d groups).getD []) st diff
      (domainTotal byNode ptn ntz orig d) (hbk d) o' ho'
    have h2 := addExistDomains_free byNode ptn ntz sname orig spread groups rest
      (addExistDomain sname orig spread ((alookup d groups).getD []) st diff
        (domainTotal byNode ptn ntz orig d)).2.1
      (addExistDomain sname orig spread ((alookup d groups).getD []) st diff
        (domainTotal byNode ptn ntz orig d)).2.2 hbk o' ho'
    omega

theorem addExistDomains_blocked (byNode : Bool) (ptn ntz : List (String × String))
    (sname : String) (orig : List Placement) (spread : Int)
    (groups : List (String × List Int)) :
    ∀ (ds : List String) (st : State) (diff : Int),
    (∀ d, ∀ o ∈ (alookup d groups).getD [], 0 ≤ o) →
    ds.Nodup →
    (∀ d ∈ ds, ∀ o ∈ (alookup d groups).getD [],
      dkey byNode ptn ntz (getPlacementFromPodOrdinal sname orig o).podName = d) →
    (∀ d ∈ ds, domainTotal byNode ptn ntz orig d
      ≤ (((alookup d groups).getD []).map
          (fun o => (getPlacementFromPodOrdinal sname orig o).vreplicas)).sum) →
    0 ≤ diff →
    0 < (addExistDomains byNode ptn ntz sname orig spread groups ds st diff).2.2 →
    ∀ d ∈ ds, ∀ o ∈ (alookup d groups).getD [],
      (addExistDomains byNode ptn ntz sname orig spread groups ds st diff).2.1.Free o ≤ 0
      ∨ spread ≤ domainTotal byNode ptn ntz
          (addExistDomains byNode ptn ntz sname orig spread groups ds st diff).1 d
  | [], _, _, _, _, _, _, _, _, d, hd, _, _ => absurd hd (List.not_mem_nil d)
  | d :: rest, st, diff, hbk, hnd, hkey, htot, hdiff, hpos, d'', hd'', o, ho => by
    rw [List.nodup_cons] at hnd
    unfold addExistDomains at hpos ⊢
    simp only [] at hpos ⊢
    have hrd := addExistDomain_diff sname orig spread ((alookup d groups).getD []) st diff
      (domainTotal byNode ptn ntz orig d) hdiff
    have hr2d := addExistDomains_diff byNode ptn ntz sname orig spread groups rest
      (addExistDomain sname orig spread ((alookup d groups).getD []) st diff
        (domainTotal byNode ptn ntz orig d)).2.1
      (addExistDomain sname orig spread ((alookup d groups).getD []) st diff
        (domainTotal byNode ptn ntz orig d)).2.2 hrd.1
    have hpos0 : 0 < (addExistDomain sname orig spread ((alookup d groups).getD []) st diff
        (domainTotal byNode ptn ntz orig d)).2.2 := by omega
    have hseg1 : ∀ p ∈ (addExistDomain sname orig spread ((alookup d groups).getD []) st diff
        (domainTotal byNode ptn ntz orig d)).1,
        dkey byNode ptn ntz p.podName = d := by
      intro p hp
      obtain ⟨o', ho', a, _, h1, _⟩ := addExistDomain_mem sname orig spread
        ((alookup d groups).getD []) st diff (domainTotal byNode ptn ntz orig d) p hp
      rw [h1]
      exact hkey d (List.mem_cons_self d rest) o' ho'
    have hseg2 : ∀ p ∈ (addExistDomains byNode ptn ntz sname orig spread groups rest
        (addExistDomain sname orig spread ((alookup d groups).getD []) st diff
          (domainTotal byNode ptn ntz orig d)).2.1
        (addExistDomain sname orig spread ((alookup d groups).getD []) st diff
          (domainTotal byNode ptn ntz orig d)).2.2).1,
        ∃ dp ∈ rest, dkey byNode ptn ntz p.podName = dp := by
      intro p hp
      obtain ⟨dp, hdp, o', ho', a, _, h1, _⟩ := addExistDomains_mem byNode ptn ntz sname
        orig spread groups rest _ _ p hp
      refine ⟨dp, hdp, ?_⟩
      rw [h1]
      exact hkey dp (List.mem_cons_of_mem d hdp) o' ho'
    rw [List.mem_cons] at hd''
    rw [domainTotal_append]
    rcases hd'' with hd'' | hd''
    · subst hd''
      have hbl := addExistDomain_blocked sname orig spread ((alookup d'' groups).getD [])
        st diff (domainTotal byNode ptn ntz orig d'') (hbk d'') hdiff hpos0 o ho
      rcases hbl with hbl | hbl
      · left
        have hfree := addExistDomains_free byNode ptn ntz sname orig spread groups rest
          (addExistDomain sname orig spread ((alookup d'' groups).getD []) st diff
            (domainTotal byNode ptn ntz orig d'')).2.1
          (addExistDomain sname orig spread ((alookup d'' groups).getD []) st diff
            (domainTotal byNode ptn ntz orig d'')).2.2 hbk o (hbk d'' o ho)
        omega
      · right
        have ht1 : domainTotal byNode ptn ntz
            (addExistDomain sname orig spread ((alookup d'' groups).getD []) st diff
              (domainTotal byNode ptn ntz orig d'')).1 d''
            = getTotalVReplicas (addExistDomain sname orig spread
                ((alookup d'' groups).getD []) st diff
                (domainTotal byNode ptn ntz orig d'')).1 :=
          domainTotal_of_all byNode ptn ntz _ d'' hseg1
        have ht2 := addExistDomain_total sname orig spread ((alookup d'' groups).getD [])
          st diff (domainTotal byNode ptn ntz orig d'')
        have ht3 : domainTotal byNode ptn ntz
            (addExistDomains byNode ptn ntz sname orig spread groups rest
              (addExistDomain sname orig spread ((alookup d'' groups).getD []) st diff
                (domainTotal byNode ptn ntz orig d'')).2.1
              (addExistDomain sname orig spread ((alookup d'' groups).getD []) st diff
                (domainTotal byNode ptn ntz orig d'')).2.2).1 d'' = 0 := by
          refine domainTotal_of_none byNode ptn ntz _ d'' ?_
          intro p hp
          obtain ⟨dp, hdp, hpk⟩ := hseg2 p hp
          rw [hpk]
          intro hc
          exact hnd.1 (hc ▸ hdp)
        have ht4 := htot d'' (List.mem_cons_self d'' rest)
        omega
    · have ih := addExistDomains_blocked byNode ptn ntz sname orig spread groups rest
        (addExistDomain sname orig spread ((alookup d groups).getD []) st diff
          (domainTotal byNode ptn ntz orig d)).2.1
        (addExistDomain sname orig spread ((alookup d groups).getD []) st diff
          (domainTotal byNode ptn ntz orig d)).2.2 hbk hnd.2
        (fun dp hdp => hkey dp (List.mem_cons_of_mem d hdp))
        (fun dp hdp => htot dp (List.mem_cons_of_mem d hdp)) hrd.1 hpos d'' hd'' o ho
      rcases ih with ih | ih
      · exact Or.inl ih
      · right
        have ht1 : domainTotal byNode ptn ntz
            (addExistDomain sname orig spread ((alookup d groups).getD []) st diff
              (domainTotal byNode ptn ntz orig d)).1 d'' = 0 := by
          refine domainTotal_of_none byNode ptn ntz _ d'' ?_
          intro p hp
          rw [hseg1 p hp]
          intro hc
          exact hnd.1 (hc ▸ hd'')
        omega

/-! ### The new-pod pass of the even-spread scale-up -/

theorem domainTotal_nonneg (byNode : Bool) (ptn ntz : List (String × String))
    (l : List Placement) (d : String) (h : NonNegVR l) :
    0 ≤ domainTotal byNode ptn ntz l d := by
  rw [domainTotal_filter]
  exact getTotalVReplicas_nonneg fun p hp => h p (List.mem_of_mem_filter hp)

theorem domainTotal_singleton (byNode : Bool) (ptn ntz : List (String × String))
    (e : Placement) (d : String) :
    domainTotal byNode ptn ntz [e] d
      = if dkey byNode ptn ntz e.podName = d then e.vreplicas else 0 := by
  rw [domainTotal_filter]
  by_cases hc : dkey byNode ptn ntz e.podName = d
  · rw [if_pos hc]
    rw [List.filter_cons, if_pos (decide_eq_true hc), List.filter_nil]
    exact getTotalVReplicas_singleton e
  · rw [if_neg hc]
    rw [List.filter_cons, if_neg (fun hx => hc (of_decide_eq_true hx)), List.filter_nil]
    exact getTotalVReplicas_nil

/-- Once a pod is blocked for the new-pod scan (no free capacity, its
domain already at the spread, or no pod info), it stays blocked, so the
scan never appends a pod name that is already placed. -/
theorem addToNewReplicas_preserves (byNode : Bool) (ptn ntz : List (String × String))
    (sname : String) (spread : Int) :
    ∀ (ords : List Int) (st : State) (diff : Int) (cur : List Placement),
    0 < diff →
    (∀ o ∈ ords, 0 ≤ o ∧ o ≤ maxInt32) → ords.Nodup →
    NamesNodup cur → NonNegVR cur →
    (∀ q ∈ cur, st.Free (ordinalFromPodName q.podName) ≤ 0
      ∨ spread ≤ domainTotal byNode ptn ntz cur (dkey byNode ptn ntz q.podName)
      ∨ (getPodInfo ptn ntz q.podName).2.2 = true) →
    NamesNodup (addToNewReplicas byNode ptn ntz sname spread ords st diff cur).1
    ∧ NonNegVR (addToNewReplicas byNode ptn ntz sname spread ords st diff cur).1
  | [], _, _, _, _, _, _, h4, h5, _ => ⟨h4, h5⟩
  | ordinal :: rest, st, diff, cur, hdiff, hords, hnd, hnodup, hnn, hinv => by
    have hbo : 0 ≤ ordinal ∧ ordinal ≤ maxInt32 := hords ordinal (List.mem_cons_self _ _)
    have hords' : ∀ o ∈ rest, 0 ≤ o ∧ o ≤ maxInt32 :=
      fun o ho => hords o (List.mem_cons_of_mem _ ho)
    rw [List.nodup_cons] at hnd
    have hront : ordinalFromPodName (podNameFromOrdinal sname ordinal) = ordinal :=
      ordinalFromPodName_roundtrip sname ordinal hbo.1 hbo.2
    unfold addToNewReplicas
    simp only []
    by_cases hf : 0 < st.Free ordinal
    · rw [if_pos hf]
      by_cases herr : (getPodInfo ptn ntz (podNameFromOrdinal sname ordinal)).2.2
      · rw [if_pos herr]
        simp only []
        rw [if_neg (by omega : ¬ diff = 0)]
        exact addToNewReplicas_preserves byNode ptn ntz sname spread rest st diff cur
          hdiff hords' hnd.2 hnodup hnn hinv
      · rw [if_neg herr]
        by_cases hts : domainTotal byNode ptn ntz cur
            (if byNode then (getPodInfo ptn ntz (podNameFromOrdinal sname ordinal)).2.1
             else (getPodInfo ptn ntz (podNameFromOrdinal sname ordinal)).1) ≥ spread
        · rw [if_pos hts]
          simp only []
          rw [if_neg (by omega : ¬ diff = 0)]
          exact addToNewReplicas_preserves byNode ptn ntz sname spread rest st diff cur
            hdiff hords' hnd.2 hnodup hnn hinv
        · rw [if_neg hts]
          simp only []
          have hdk : dkey byNode ptn ntz (podNameFromOrdinal sname ordinal)
              = (if byNode then (getPodInfo ptn ntz (podNameFromOrdinal sname ordinal)).2.1
                 else (getPodInfo ptn ntz (podNameFromOrdinal sname ordinal)).1) := rfl
          have halloc0 : 0 < min diff (min (st.Free ordinal)
              (spread - domainTotal byNode ptn ntz cur
                (if byNode then (getPodInfo ptn ntz (podNameFromOrdinal sname ordinal)).2.1
                 else (getPodInfo ptn ntz (podNameFromOrdinal sname ordinal)).1))) := by
            omega
          have hnotin : podNameFromOrdinal sname ordinal ∉ cur.map (·.podName) := by
            intro hc
            obtain ⟨q, hq, hqn⟩ := List.mem_map.mp hc
            rcases hinv q hq with hq1 | hq1 | hq1
            · rw [hqn, hront] at hq1
              omega
            · rw [hqn, hdk] at hq1
              omega
            · rw [hqn] at hq1
              exact herr hq1
          have hnodup2 : NamesNodup (cur ++ [⟨podNameFromOrdinal sname ordinal,
              min diff (min (st.Free ordinal)
                (spread - domainTotal byNode ptn ntz cur
                  (if byNode then (getPodInfo ptn ntz (podNameFromOrdinal sname ordinal)).2.1
                   else (getPodInfo ptn ntz (podNameFromOrdinal sname ordinal)).1)))⟩]) := by
            show ((cur ++ _).map (·.podName)).Nodup
            rw [List.map_append]
            rw [List.nodup_append]
            refine ⟨hnodup, List.nodup_singleton _, ?_⟩
            intro a ha hb
            simp only [List.map_cons, List.map_nil, List.mem_singleton] at hb
            subst hb
            exact hnotin ha
          have hnn2 : NonNegVR (cur ++ [⟨podNameFromOrdinal sname ordinal,
              min diff (min (st.Free ordinal)
                (spread - domainTotal byNode ptn ntz cur
                  (if byNode then (getPodInfo ptn ntz (podNameFromOrdinal sname ordinal)).2.1
                   else (getPodInfo ptn ntz (podNameFromOrdinal sname ordinal)).1)))⟩]) := by
            intro q hq
            rcases List.mem_append.mp hq with hq | hq
            · exact hnn q hq
            · rw [List.mem_singleton] at hq
              rw [hq]
              show 0 ≤ min diff _
              omega
          by_cases hz : diff - min diff (min (st.Free ordinal)
              (spread - domainTotal byNode ptn ntz cur
                (if byNode then (getPodInfo ptn ntz (podNameFromOrdinal sname ordinal)).2.1
                 else (getPodInfo ptn ntz (podNameFromOrdinal sname ordinal)).1))) = 0
          · rw [if_pos hz]
            exact ⟨hnodup2, hnn2⟩
          · rw [if_neg hz]
            refine addToNewReplicas_preserves byNode ptn ntz sname spread rest _ _ _
              (by omega) hords' hnd.2 hnodup2 hnn2 ?_
            intro q hq
            rcases List.mem_append.mp hq with hq | hq
            · rcases hinv q hq with hq1 | hq1 | hq1
              · left
                have h2 := Free_SetFree_le st ordinal
                  (st.Free ordinal - min diff (min (st.Free ordinal)
                    (spread - domainTotal byNode ptn ntz cur
                      (if byNode then (getPodInfo ptn ntz
                          (podNameFromOrdinal sname ordinal)).2.1
                       else (getPodInfo ptn ntz (podNameFromOrdinal sname ordinal)).1))))
                  (ordinalFromPodName q.podName) hbo.1 (ordinalFromPodName_nonneg _)
                  (by omega)
                omega
              · right
                left
                rw [domainTotal_append]
                have h3 := domainTotal_nonneg byNode ptn ntz
                  [(⟨podNameFromOrdinal sname ordinal,
                    min diff (min (st.Free ordinal)
                      (spread - domainTotal byNode ptn ntz cur
                        (if byNode then (getPodInfo ptn ntz
                            (podNameFromOrdinal sname ordinal)).2.1
                         else (getPodInfo ptn ntz
                            (podNameFromOrdinal sname ordinal)).1)))⟩ : Placement)]
                  (dkey byNode ptn ntz q.podName)
                  (fun p hp => by
                    rw [List.mem_singleton] at hp
                    rw [hp]
                    show 0 ≤ min diff _
                    omega)
                omega
              · right
                right
                exact hq1
            · rw [List.mem_singleton] at hq
              subst hq
              simp only []
              rw [hront]
              by_cases haf : min diff (min (st.Free ordinal)
                  (spread - domainTotal byNode ptn ntz cur
                    (if byNode then (getPodInfo ptn ntz
                        (podNameFromOrdinal sname ordinal)).2.1
                     else (getPodInfo ptn ntz (podNameFromOrdinal sname ordinal)).1)))
                  = st.Free ordinal
              · left
                have h2 := Free_SetFree_self st ordinal
                  (st.Free ordinal - min diff (min (st.Free ordinal)
                    (spread - domainTotal byNode ptn ntz cur
                      (if byNode then (getPodInfo ptn ntz
                          (podNameFromOrdinal sname ordinal)).2.1
                       else (getPodInfo ptn ntz
                          (podNameFromOrdinal sname ordinal)).1)))) hbo.1
                omega
              · right
                left
                rw [domainTotal_append, domainTotal_singleton]
                rw [hdk]
                rw [if_pos rfl]
                simp only []
                omega
    · rw [if_neg hf]
      simp only []
      rw [if_neg (by omega : ¬ diff = 0)]
      exact addToNewReplicas_preserves byNode ptn ntz sname spread rest st diff cur
        hdiff hords' hnd.2 hnodup hnn hinv

/-! ### `addToExistingReplicas` and `addReplicasEvenSpread` -/

theorem addToExistingReplicas_spec (byNode : Bool) (ptn ntz : List (String × String))
    (sname : String) (st : State) (diff : Int) (placements : List Placement) (spread : Int)
    (hd : 0 ≤ diff) (hnodup : NamesNodup placements) (hnn : NonNegVR placements)
    (hcanon : Canonical sname placements) :
    NamesNodup (addToExistingReplicas byNode ptn ntz sname st diff placements spread).1
    ∧ NonNegVR (addToExistingReplicas byNode ptn ntz sname st diff placements spread).1
    ∧ 0 ≤ (addToExistingReplicas byNode ptn ntz sname st diff placements spread).2.2
    ∧ (0 < (addToExistingReplicas byNode ptn ntz sname st diff placements spread).2.2 →
        ∀ q ∈ (addToExistingReplicas byNode ptn ntz sname st diff placements spread).1,
        (addToExistingReplicas byNode ptn ntz sname st diff placements
            spread).2.1.Free (ordinalFromPodName q.podName) ≤ 0
          ∨ spread ≤ domainTotal byNode ptn ntz
              (addToExistingReplicas byNode ptn ntz sname st diff placements spread).1
              (dkey byNode ptn ntz q.podName)
          ∨ (getPodInfo ptn ntz q.podName).2.2 = true) := by
  have hunf : addToExistingReplicas byNode ptn ntz sname st diff placements spread
      = addExistDomains byNode ptn ntz sname placements spread
          (if byNode then getPlacementsByNodeKey ptn ntz placements
           else getPlacementsByZoneKey ptn ntz placements)
          (sortedDomainNames
            (if byNode then getPlacementsByNodeKey ptn ntz placements
             else getPlacementsByZoneKey ptn ntz placements)) st diff := rfl
  rw [hunf]
  set G := if byNode then getPlacementsByNodeKey ptn ntz placements
           else getPlacementsByZoneKey ptn ntz placements with hG
  have hgroups : G = placements.foldl (fun g p =>
      appendGroup (dkey byNode ptn ntz p.podName) (ordinalFromPodName p.podName) g) [] := by
    rw [hG]
    cases byNode
    · show getPlacementsByZoneKey ptn ntz placements = _
      rfl
    · show getPlacementsByNodeKey ptn ntz placements = _
      rfl
  have hgppo : ∀ p ∈ placements,
      getPlacementFromPodOrdinal sname placements (ordinalFromPodName p.podName) = p :=
    fun p hp => getPlacementFromPodOrdinal_of_mem sname placements hnodup hcanon p hp
  have hbucket : ∀ d, (alookup d G).getD []
      = (placements.filter (fun p => dkey byNode ptn ntz p.podName = d)).map
          (fun p => ordinalFromPodName p.podName) := by
    intro d
    rw [hgroups]
    have h0 : (alookup d ([] : List (String × List Int))).getD [] = [] := rfl
    exact (groupFold_getD (fun p : Placement => dkey byNode ptn ntz p.podName)
      (fun p : Placement => ordinalFromPodName p.podName) placements [] d).trans
      (by rw [h0, List.nil_append])
  have hbnn : ∀ d, ∀ o ∈ (alookup d G).getD [], 0 ≤ o := by
    intro d o ho
    rw [hbucket d] at ho
    obtain ⟨p, _, hpo⟩ := List.mem_map.mp ho
    rw [← hpo]
    exact ordinalFromPodName_nonneg _
  have hkeys_nodup : (G.map (·.1)).Nodup := by
    rw [hgroups]
    exact groupFold_keys_nodup (fun p : Placement => dkey byNode ptn ntz p.podName)
      (fun p : Placement => ordinalFromPodName p.podName) placements [] (by simp)
  have hds_nodup : (sortedDomainNames G).Nodup := by
    show ((G.map (·.1)).mergeSort (fun a b => decide (a ≤ b))).Nodup
    exact ((List.mergeSort_perm (G.map (·.1)) (fun a b => decide (a ≤ b))).symm.nodup
      hkeys_nodup)
  have hds_mem : ∀ a, a ∈ G.map (·.1) → a ∈ sortedDomainNames G := by
    intro a ha
    show a ∈ (G.map (·.1)).mergeSort (fun a b => decide (a ≤ b))
    exact (List.mergeSort_perm (G.map (·.1)) (fun a b => decide (a ≤ b))).mem_iff.mpr ha
  have hcov : ∀ x ∈ placements, dkey byNode ptn ntz x.podName ∈ sortedDomainNames G := by
    intro x hx
    refine hds_mem _ ?_
    rw [hgroups]
    exact groupFold_cover (fun p : Placement => dkey byNode ptn ntz p.podName)
      (fun p : Placement => ordinalFromPodName p.podName) placements x hx
  have hkeyds : ∀ d ∈ sortedDomainNames G, ∀ o ∈ (alookup d G).getD [],
      dkey byNode ptn ntz (getPlacementFromPodOrdinal sname placements o).podName = d := by
    intro d _ o ho
    rw [hbucket d] at ho
    obtain ⟨p, hpf, hpo⟩ := List.mem_map.mp ho
    rw [← hpo, hgppo p (List.mem_of_mem_filter hpf)]
    exact of_decide_eq_true (List.mem_filter.mp hpf).2
  have htotds : ∀ d ∈ sortedDomainNames G, domainTotal byNode ptn ntz placements d
      ≤ (((alookup d G).getD []).map
          (fun o => (getPlacementFromPodOrdinal sname placements o).vreplicas)).sum := by
    intro d _
    have h1 : (((placements.filter (fun p => dkey byNode ptn ntz p.podName = d)).map
        (fun p => ordinalFromPodName p.podName)).map
        (fun o => (getPlacementFromPodOrdinal sname placements o).vreplicas))
        = (placements.filter (fun p => dkey byNode ptn ntz p.podName = d)).map
            (·.vreplicas) := by
      rw [List.map_map]
      refine List.map_congr_left ?_
      intro p hp
      show (getPlacementFromPodOrdinal sname placements
        (ordinalFromPodName p.podName)).vreplicas = p.vreplicas
      rw [hgppo p (List.mem_of_mem_filter hp)]
    rw [hbucket d, h1, ← getTotalVReplicas_eq_sum, ← domainTotal_filter]
  have hnames := addExistDomains_names byNode ptn ntz sname placements spread G
    (sortedDomainNames G) st diff
  have hinner : ∀ d, ((alookup d G).getD []).map
      (fun o => (getPlacementFromPodOrdinal sname placements o).podName)
      = (placements.filter (fun p => dkey byNode ptn ntz p.podName = d)).map
          (·.podName) := by
    intro d
    rw [hbucket d, List.map_map]
    refine List.map_congr_left ?_
    intro p hp
    show (getPlacementFromPodOrdinal sname placements
      (ordinalFromPodName p.podName)).podName = p.podName
    rw [hgppo p (List.mem_of_mem_filter hp)]
  have hperm := buckets_flatten_perm (fun p : Placement => dkey byNode ptn ntz p.podName)
    (fun p : Placement => p.podName) (sortedDomainNames G) placements hds_nodup hcov
  have hnd_out : NamesNodup
      (addExistDomains byNode ptn ntz sname placements spread G
        (sortedDomainNames G) st diff).1 := by
    show ((addExistDomains byNode ptn ntz sname placements spread G
      (sortedDomainNames G) st diff).1.map (·.podName)).Nodup
    rw [hnames, List.map_congr_left (fun d _ => hinner d)]
    exact hperm.symm.nodup hnodup
  have hnn_out : NonNegVR
      (addExistDomains byNode ptn ntz sname placements spread G
        (sortedDomainNames G) st diff).1 := by
    intro p hp
    obtain ⟨d, _, o, _, a, ha, _, hv⟩ := addExistDomains_mem byNode ptn ntz sname
      placements spread G (sortedDomainNames G) st diff p hp
    have h2 := getPlacementFromPodOrdinal_nonneg sname placements o hnn
    omega
  refine ⟨hnd_out, hnn_out,
    (addExistDomains_diff byNode ptn ntz sname placements spread G
      (sortedDomainNames G) st diff hd).1, ?_⟩
  intro hpos q hq
  obtain ⟨d, hdm, o, ho, a, ha, hqn, hqv⟩ := addExistDomains_mem byNode ptn ntz sname
    placements spread G (sortedDomainNames G) st diff q hq
  have hqo : ordinalFromPodName q.podName = o := by
    have ho2 := ho
    rw [hbucket d] at ho2
    obtain ⟨p, hpf, hpo⟩ := List.mem_map.mp ho2
    rw [hqn, ← hpo, hgppo p (List.mem_of_mem_filter hpf)]
  have hqd : dkey byNode ptn ntz q.podName = d := by
    rw [hqn]
    exact hkeyds d hdm o ho
  have hbl := addExistDomains_blocked byNode ptn ntz sname placements spread G
    (sortedDomainNames G) st diff hbnn hds_nodup hkeyds htotds hd hpos d hdm o ho
  rw [hqo, hqd]
  rcases hbl with hbl | hbl
  · exact Or.inl hbl
  · exact Or.inr (Or.inl hbl)

/-- The even-spread scale-up preserves the placement-list invariants. -/
theorem addReplicasEvenSpread_preserves (byNode : Bool) (ptn : List (String × String))
    (replicas : Int) (sname : String) (st : State) (diff : Int)
    (placements : List Placement) (spread : Int)
    (hrep : replicas ≤ maxInt32 + 1) (hdiff : 0 < diff)
    (hnodup : NamesNodup placements) (hnn : NonNegVR placements)
    (hcanon : Canonical sname placements) :
    NamesNodup (addReplicasEvenSpread byNode ptn replicas sname st diff placements spread).1
    ∧ NonNegVR
        (addReplicasEvenSpread byNode ptn replicas sname st diff placements spread).1 := by
  unfold addReplicasEvenSpread
  simp only []
  obtain ⟨g1, g2, g3, g4⟩ := addToExistingReplicas_spec byNode ptn st.NodeToZoneMap sname
    st diff placements spread (by omega) hnodup hnn hcanon
  by_cases hc : 0 < (addToExistingReplicas byNode ptn st.NodeToZoneMap sname st diff
      placements spread).2.2
  · rw [if_pos hc]
    refine addToNewReplicas_preserves byNode ptn st.NodeToZoneMap sname spread
      (rangeInts replicas) _ _ _ hc ?_ (rangeInts_nodup replicas) g1 g2 (g4 hc)
    intro o ho
    have := mem_rangeInts ho
    omega
  · rw [if_neg hc]
    exact ⟨g1, g2⟩

/-! ### The even-spread scale-down -/

theorem flatten_map_perm {α β : Type} (F1 F2 : α → List β) :
    ∀ (ds : List α), (∀ d ∈ ds, List.Perm (F1 d) (F2 d)) →
    List.Perm ((ds.map F1).flatten) ((ds.map F2).flatten)
  | [], _ => List.Perm.refl _
  | d :: ds, h => by
    rw [List.map_cons, List.map_cons, List.flatten_cons, List.flatten_cons]
    exact (h d (List.mem_cons_self d ds)).append
      (flatten_map_perm F1 F2 ds (fun x hx => h x (List.mem_cons_of_mem d hx)))

theorem removeExistDomain_names (sname : String) (orig : List Placement) (spread : Int) :
    ∀ (bucket : List Int) (diff total : Int),
    ((removeExistDomain sname orig spread bucket diff total).1.map (·.podName)).Sublist
      (bucket.map (fun o => (getPlacementFromPodOrdinal sname orig o).podName))
  | [], _, _ => List.Sublist.refl _
  | o :: rest, diff, total => by
    unfold removeExistDomain
    simp only []
    by_cases hg : 0 < diff ∧ total ≥ spread
    · rw [if_pos hg]
      by_cases h1 : 0 < min diff (min (getPlacementFromPodOrdinal sname orig o).vreplicas
          (total - spread))
          ∧ min diff (min (getPlacementFromPodOrdinal sname orig o).vreplicas
              (total - spread))
            < (getPlacementFromPodOrdinal sname orig o).vreplicas
      · rw [if_pos h1]
        simp only [List.map_cons]
        exact List.Sublist.cons₂ _ (removeExistDomain_names sname orig spread rest _ _)
      · rw [if_neg h1]
        by_cases h2 : min diff (min (getPlacementFromPodOrdinal sname orig o).vreplicas
            (total - spread)) ≥ (getPlacementFromPodOrdinal sname orig o).vreplicas
        · rw [if_pos h2]
          exact List.Sublist.cons _ (removeExistDomain_names sname orig spread rest _ _)
        · rw [if_neg h2]
          simp only [List.map_cons]
          exact List.Sublist.cons₂ _ (removeExistDomain_names sname orig spread rest _ _)
    · rw [if_neg hg]
      simp only [List.map_cons]
      exact List.Sublist.cons₂ _ (removeExistDomain_names sname orig spread rest _ _)

theorem removeExistDomain_nonneg (sname : String) (orig : List Placement) (spread : Int)
    (hnn : NonNegVR orig) :
    ∀ (bucket : List Int) (diff total : Int),
    ∀ q ∈ (removeExistDomain sname orig spread bucket diff total).1, 0 ≤ q.vreplicas
  | [], _, _ => by
    intro q hq
    exact absurd hq (List.not_mem_nil q)
  | o :: rest, diff, total => by
    intro q hq
    unfold removeExistDomain at hq
    simp only [] at hq
    by_cases hg : 0 < diff ∧ total ≥ spread
    · rw [if_pos hg] at hq
      by_cases h1 : 0 < min diff (min (getPlacementFromPodOrdinal sname orig o).vreplicas
          (total - spread))
          ∧ min diff (min (getPlacementFromPodOrdinal sname orig o).vreplicas
              (total - spread))
            < (getPlacementFromPodOrdinal sname orig o).vreplicas
      · rw [if_pos h1] at hq
        rcases List.mem_cons.mp hq with hq | hq
        · rw [hq]
          show 0 ≤ (getPlacementFromPodOrdinal sname orig o).vreplicas
            - min diff (min (getPlacementFromPodOrdinal sname orig o).vreplicas
                (total - spread))
          omega
        · exact removeExistDomain_nonneg sname orig spread hnn rest _ _ q hq
      · rw [if_neg h1] at hq
        by_cases h2 : min diff (min (getPlacementFromPodOrdinal sname orig o).vreplicas
            (total - spread)) ≥ (getPlacementFromPodOrdinal sname orig o).vreplicas
        · rw [if_pos h2] at hq
          exact removeExistDomain_nonneg sname orig spread hnn rest _ _ q hq
        · rw [if_neg h2] at hq
          rcases List.mem_cons.mp hq with hq | hq
          · rw [hq]
            exact getPlacementFromPodOrdinal_nonneg sname orig o hnn
          · exact removeExistDomain_nonneg sname orig spread hnn rest _ _ q hq
    · rw [if_neg hg] at hq
      rcases List.mem_cons.mp hq with hq | hq
      · rw [hq]
        exact getPlacementFromPodOrdinal_nonneg sname orig o hnn
      · exact removeExistDomain_nonneg sname orig spread hnn rest _ _ q hq

theorem removeExistDomains_names (byNode : Bool) (ptn ntz : List (String × String))
    (sname : String) (orig : List Placement) (spread : Int)
    (groups : List (String × List Int)) :
    ∀ (ds : List String) (diff : Int),
    ((removeExistDomains byNode ptn ntz sname orig spread groups ds diff).map
        (·.podName)).Sublist
      ((ds.map (fun d => (((alookup d groups).getD []).reverse).map
          (fun o => (getPlacementFromPodOrdinal sname orig o).podName))).flatten)
  | [], _ => List.Sublist.refl _
  | d :: rest, diff => by
    unfold removeExistDomains
    simp only [List.map_cons, List.flatten_cons]
    rw [List.map_append]
    exact List.Sublist.append (removeExistDomain_names sname orig spread _ _ _)
      (removeExistDomains_names byNode ptn ntz sname orig spread groups rest _)

theorem removeExistDomains_nonneg (byNode : Bool) (ptn ntz : List (String × String))
    (sname : String) (orig : List Placement) (spread : Int)
    (groups : List (String × List Int)) (hnn : NonNegVR orig) :
    ∀ (ds : List String) (diff : Int),
    ∀ q ∈ removeExistDomains byNode ptn ntz sname orig spread groups ds diff,
    0 ≤ q.vreplicas
  | [], _ => by
    intro q hq
    exact absurd hq (List.not_mem_nil q)
  | d :: rest, diff => by
    intro q hq
    unfold removeExistDomains at hq
    simp only [] at hq
    rcases List.mem_append.mp hq with hq | hq
    · exact removeExistDomain_nonneg sname orig spread hnn _ _ _ q hq
    · exact removeExistDomains_nonneg byNode ptn ntz sname orig spread groups hnn rest _ q hq

/-- The even-spread scale-down preserves the placement-list invariants. -/
theorem removeReplicasEvenSpread_preserves (byNode : Bool) (ptn : List (String × String))
    (sname : String) (st : State) (diff : Int) (placements : List Placement) (spread : Int)
    (hnodup : NamesNodup placements) (hnn : NonNegVR placements)
    (hcanon : Canonical sname placements) :
    NamesNodup (removeReplicasEvenSpread byNode ptn sname st diff placements spread)
    ∧ NonNegVR (removeReplicasEvenSpread byNode ptn sname st diff placements spread) := by
  have hunf : removeReplicasEvenSpread byNode ptn sname st diff placements spread
      = removeExistDomains byNode ptn st.NodeToZoneMap sname placements spread
          (if byNode then getPlacementsByNodeKey ptn st.NodeToZoneMap placements
           else getPlacementsByZoneKey ptn st.NodeToZoneMap placements)
          (sortedDomainNames
            (if byNode then getPlacementsByNodeKey ptn st.NodeToZoneMap placements
             else getPlacementsByZoneKey ptn st.NodeToZoneMap placements)) diff := rfl
  rw [hunf]
  set G := if byNode then getPlacementsByNodeKey ptn st.NodeToZoneMap placements
           else getPlacementsByZoneKey ptn st.NodeToZoneMap placements with hG
  have hgroups : G = placements.foldl (fun g p =>
      appendGroup (dkey byNode ptn st.NodeToZoneMap p.podName)
        (ordinalFromPodName p.podName) g) [] := by
    rw [hG]
    cases byNode
    · show getPlacementsByZoneKey ptn st.NodeToZoneMap placements = _
      rfl
    · show getPlacementsByNodeKey ptn st.NodeToZoneMap placements = _
      rfl
  have hgppo : ∀ p ∈ placements,
      getPlacementFromPodOrdinal sname placements (ordinalFromPodName p.podName) = p :=
    fun p hp => getPlacementFromPodOrdinal_of_mem sname placements hnodup hcanon p hp
  have hbucket : ∀ d, (alookup d G).getD []
      = (placements.filter
          (fun p => dkey byNode ptn st.NodeToZoneMap p.podName = d)).map
          (fun p => ordinalFromPodName p.podName) := by
    intro d
    rw [hgroups]
    have h0 : (alookup d ([] : List (String × List Int))).getD [] = [] := rfl
    exact (groupFold_getD (fun p : Placement => dkey byNode ptn st.NodeToZoneMap p.podName)
      (fun p : Placement => ordinalFromPodName p.podName) placements [] d).trans
      (by rw [h0, List.nil_append])
  have hkeys_nodup : (G.map (·.1)).Nodup := by
    rw [hgroups]
    exact groupFold_keys_nodup
      (fun p : Placement => dkey byNode ptn st.NodeToZoneMap p.podName)
      (fun p : Placement => ordinalFromPodName p.podName) placements [] (by simp)
  have hds_nodup : (sortedDomainNames G).Nodup := by
    show ((G.map (·.1)).mergeSort (fun a b => decide (a ≤ b))).Nodup
    exact ((List.mergeSort_perm (G.map (·.1)) (fun a b => decide (a ≤ b))).symm.nodup
      hkeys_nodup)
  have hds_mem : ∀ a, a ∈ G.map (·.1) → a ∈ sortedDomainNames G := by
    intro a ha
    show a ∈ (G.map (·.1)).mergeSort (fun a b => decide (a ≤ b))
    exact (List.mergeSort_perm (G.map (·.1)) (fun a b => decide (a ≤ b))).mem_iff.mpr ha
  have hcov : ∀ x ∈ placements,
      dkey byNode ptn st.NodeToZoneMap x.podName ∈ sortedDomainNames G := by
    intro x hx
    refine hds_mem _ ?_
    rw [hgroups]
    exact groupFold_cover (fun p : Placement => dkey byNode ptn st.NodeToZoneMap p.podName)
      (fun p : Placement => ordinalFromPodName p.podName) placements x hx
  have hinner : ∀ d, ((alookup d G).getD []).map
      (fun o => (getPlacementFromPodOrdinal sname placements o).podName)
      = (placements.filter
          (fun p => dkey byNode ptn st.NodeToZoneMap p.podName = d)).map (·.podName) := by
    intro d
    rw [hbucket d, List.map_map]
    refine List.map_congr_left ?_
    intro p hp
    show (getPlacementFromPodOrdinal sname placements
      (ordinalFromPodName p.podName)).podName = p.podName
    rw [hgppo p (List.mem_of_mem_filter hp)]
  have hperm := buckets_flatten_perm
    (fun p : Placement => dkey byNode ptn st.NodeToZoneMap p.podName)
    (fun p : Placement => p.podName) (sortedDomainNames G) placements hds_nodup hcov
  have hrevperm : List.Perm
      (((sortedDomainNames G).map (fun d => (((alookup d G).getD []).reverse).map
          (fun o => (getPlacementFromPodOrdinal sname placements o).podName))).flatten)
      (((sortedDomainNames G).map (fun d => ((alookup d G).getD []).map
          (fun o => (getPlacementFromPodOrdinal sname placements o).podName))).flatten) :=
    flatten_map_perm _ _ (sortedDomainNames G)
      (fun d _ => (List.reverse_perm ((alookup d G).getD [])).map
        (fun o => (getPlacementFromPodOrdinal sname placements o).podName))
  have hfwd_nodup : (((sortedDomainNames G).map (fun d => ((alookup d G).getD []).map
      (fun o => (getPlacementFromPodOrdinal sname placements o).podName))).flatten).Nodup := by
    rw [List.map_congr_left (fun d _ => hinner d)]
    exact hperm.symm.nodup hnodup
  constructor
  · show ((removeExistDomains byNode ptn st.NodeToZoneMap sname placements spread G
      (sortedDomainNames G) diff).map (·.podName)).Nodup
    exact (hrevperm.symm.nodup hfwd_nodup).sublist
      (removeExistDomains_names byNode ptn st.NodeToZoneMap sname placements spread G
        (sortedDomainNames G) diff)
  · exact removeExistDomains_nonneg byNode ptn st.NodeToZoneMap sname placements spread G
      hnn (sortedDomainNames G) diff

/-! ### The MAXFILLUP scale-down -/

theorem removeRev_pos (l : List Placement) :
    ∀ (d : Int), ∀ q ∈ removeRev d l, 0 < q.vreplicas := by
  induction l with
  | nil =>
    intro d q hq
    exact absurd hq (List.not_mem_nil q)
  | cons p t ih =>
    intro d q hq
    unfold removeRev at hq
    by_cases hcase : d ≥ p.vreplicas
    · rw [if_pos hcase] at hq
      exact ih (d - p.vreplicas) q hq
    · rw [if_neg hcase] at hq
      rcases List.mem_cons.mp hq with hq | hq
      · rw [hq]
        show 0 < p.vreplicas - d
        omega
      · exact ih 0 q hq

/-- The MAXFILLUP scale-down preserves the placement-list invariants. -/
theorem removeReplicas_preserves (diff : Int) (placements : List Placement)
    (hnodup : NamesNodup placements) :
    NamesNodup (removeReplicas diff placements)
    ∧ NonNegVR (removeReplicas diff placements) := by
  constructor
  · show ((removeRev diff placements.reverse).map (·.podName)).Nodup
    refine List.Nodup.sublist (removeRev_names_sublist diff placements.reverse) ?_
    rw [List.map_reverse]
    exact List.nodup_reverse.mpr hnodup
  · intro q hq
    exact le_of_lt (removeRev_pos placements.reverse diff q hq)

/-! ### The invariants across `scheduleVPod` and `Schedule` -/

theorem finishSchedule_placements (key : NamespacedName) (pending : PendingMap)
    (newPlacements : List Placement) (left : Int) :
    (finishSchedule key pending newPlacements left).placements = some newPlacements := by
  unfold finishSchedule
  by_cases h : 0 < left
  · rw [if_pos h]
  · rw [if_neg h]

theorem scheduleVPod_preserves (cfg : SchedulerCfg) (pending : PendingMap) (st : State)
    (vpod : VPod) (l : List Placement)
    (hrep : cfg.replicas ≤ maxInt32 + 1)
    (hdec : ∀ d ∈ cfg.policyDecisions, ∀ id : Int, d = some id → 0 ≤ id ∧ id ≤ maxInt32)
    (hnodup : NamesNodup vpod.placements) (hnn : NonNegVR vpod.placements)
    (hcanon : Canonical cfg.statefulSetName vpod.placements)
    (hret : (scheduleVPod cfg pending st vpod).placements = some l) :
    NamesNodup l ∧ NonNegVR l := by
  unfold scheduleVPod at hret
  simp only [] at hret
  by_cases h1 : getTotalVReplicas vpod.placements = vpod.vreplicas
  · rw [if_pos h1] at hret
    simp only [Option.some.injEq] at hret
    rw [← hret]
    exact ⟨hnodup, hnn⟩
  · rw [if_neg h1] at hret
    by_cases h2 : st.SchedulerPolicy ≠ SchedulerPolicyType.unspecified
    · rw [if_pos h2] at hret
      by_cases h3 : getTotalVReplicas vpod.placements > vpod.vreplicas
      · rw [if_pos h3] at hret
        simp only [Option.some.injEq] at hret
        rw [← hret]
        by_cases h4 : st.SchedulerPolicy = SchedulerPolicyType.evenspread
        · rw [if_pos h4]
          exact removeReplicasEvenSpread_preserves false cfg.podToNode cfg.statefulSetName
            st (getTotalVReplicas vpod.placements - vpod.vreplicas) vpod.placements
            (floatFloorDiv vpod.vreplicas st.NumZones) hnodup hnn hcanon
        · rw [if_neg h4]
          by_cases h5 : st.SchedulerPolicy = SchedulerPolicyType.evenspreadByNode
          · rw [if_pos h5]
            exact removeReplicasEvenSpread_preserves true cfg.podToNode cfg.statefulSetName
              st (getTotalVReplicas vpod.placements - vpod.vreplicas) vpod.placements
              (floatFloorDiv vpod.vreplicas st.NumNodes) hnodup hnn hcanon
          · rw [if_neg h5]
            exact removeReplicas_preserves
              (getTotalVReplicas vpod.placements - vpod.vreplicas) vpod.placements hnodup
      · rw [if_neg h3] at hret
        rw [finishSchedule_placements] at hret
        simp only [Option.some.injEq] at hret
        rw [← hret]
        by_cases h4 : st.SchedulerPolicy = SchedulerPolicyType.evenspread
        · rw [if_pos h4]
          simp only []
          exact (addReplicasEvenSpread_preserves false cfg.podToNode cfg.replicas
            cfg.statefulSetName st (vpod.vreplicas - getTotalVReplicas vpod.placements)
            vpod.placements (floatCeilDiv vpod.vreplicas st.NumZones) hrep (by omega)
            hnodup hnn hcanon)
        · rw [if_neg h4]
          by_cases h5 : st.SchedulerPolicy = SchedulerPolicyType.evenspreadByNode
          · rw [if_pos h5]
            simp only []
            exact (addReplicasEvenSpread_preserves true cfg.podToNode cfg.replicas
              cfg.statefulSetName st (vpod.vreplicas - getTotalVReplicas vpod.placements)
              vpod.placements (floatCeilDiv vpod.vreplicas st.NumNodes) hrep (by omega)
              hnodup hnn hcanon)
          · rw [if_neg h5]
            simp only []
            exact (addReplicas_preserves cfg.replicas cfg.statefulSetName st
              (vpod.vreplicas - getTotalVReplicas vpod.placements) vpod.placements
              hrep (by omega) hnodup hnn hcanon)
    · rw [if_neg h2] at hret
      cases hpol : cfg.policy with
      | some pol =>
        simp only [hpol] at hret
        by_cases h6 : ValidatePolicy pol ≠ []
        · rw [if_pos h6] at hret
          simp at hret
        · rw [if_neg h6] at hret
          rw [finishSchedule_placements] at hret
          simp only [Option.some.injEq] at hret
          rw [← hret]
          exact addReplicasWithPolicy_preserves cfg.statefulSetName cfg.policyDecisions
            (vpod.vreplicas - getTotalVReplicas vpod.placements) vpod.placements hdec
            hnodup hnn hcanon
      | none =>
        simp only [hpol] at hret
        rw [finishSchedule_placements] at hret
        simp only [Option.some.injEq] at hret
        rw [← hret]
        exact ⟨hnodup, hnn⟩

/-- C5.  Every placement list returned by `Schedule` has at most one
entry per pod name, and every entry carries a non-negative vreplica
count, on all three policy paths — including the even-spread scale-up,
whose new-pod scan only appends pods that are not already placed: a pod
of the existing placements leaves the first pass either with no free
capacity, or with its domain at the even-spread target, or with no
zone/node information, and each of those conditions persists through
the scan.  The committed placements are assumed well-formed in the same
sense with pod names in the canonical statefulset form, the plugin-path
oracle selects genuine pod ordinals, and the cached replica count fits
in an int32. -/
theorem claim_C5_invariants (cfg : SchedulerCfg) (pending : PendingMap)
    (reserved : ReservedMap) (st : State) (vpod : VPod) (ps : List Placement)
    (hrep : cfg.replicas ≤ maxInt32 + 1)
    (hdec : ∀ d ∈ cfg.policyDecisions, ∀ id : Int, d = some id → 0 ≤ id ∧ id ≤ maxInt32)
    (hnodup : NamesNodup vpod.placements) (hnn : NonNegVR vpod.placements)
    (hcanon : Canonical cfg.statefulSetName vpod.placements)
    (hret : (Schedule cfg pending reserved st vpod).1.placements = some ps) :
    NamesNodup ps ∧ NonNegVR ps := by
  rcases hsv : scheduleVPod cfg pending st vpod with ⟨ops, err, pend, auto⟩
  unfold Schedule at hret
  rw [hsv] at hret
  cases ops with
  | none => simp at hret
  | some l =>
    simp only [Option.some.injEq] at hret
    obtain ⟨k1, k2⟩ := scheduleVPod_preserves cfg pending st vpod l hrep hdec hnodup hnn
      hcanon (by rw [hsv])
    rw [← hret]
    constructor
    · show ((sortPlacements l).map (·.podName)).Nodup
      have k1b : (l.map (fun p : Placement => p.podName)).Nodup := k1
      exact ((sortPlacements_perm l).map (fun p : Placement => p.podName)).symm.nodup k1b
    · intro q hq
      exact k2 q ((sortPlacements_perm l).subset hq)

/-- Witness for C5 at a concrete input: desired 1, no committed
placements, MAXFILLUP. -/
theorem claim_C5_invariants_witness :
    ((1 : Int) ≤ maxInt32 + 1)
    ∧ ((Schedule ⟨1, "pool", [], none, []⟩ [] []
        { FreeCap := [], LastOrdinal := -1, Capacity := 10, SchedulerPolicy := .maxfillup }
        ⟨⟨"ns", "a"⟩, 1, []⟩).1.placements = some (sortPlacements [⟨"pool-0", 1⟩]))
    ∧ NamesNodup (sortPlacements [⟨"pool-0", 1⟩])
    ∧ NonNegVR (sortPlacements [⟨"pool-0", 1⟩]) := by
  have h := claim_C5_invariants ⟨1, "pool", [], none, []⟩ [] []
    { FreeCap := [], LastOrdinal := -1, Capacity := 10, SchedulerPolicy := .maxfillup }
    ⟨⟨"ns", "a"⟩, 1, []⟩ (sortPlacements [⟨"pool-0", 1⟩]) (by decide)
    (fun d hd => absurd hd (List.not_mem_nil d))
    List.nodup_nil
    (fun p hp => absurd hp (List.not_mem_nil p))
    (fun p hp => absurd hp (List.not_mem_nil p))
    rfl
  exact ⟨by decide, rfl, h.1, h.2⟩

end EventingKafka
